import Mathlib

/-!
Verification of the core primitives of the clog library: the reusable-slot
store (include/clog/rcv.hpp), the signal / dispatch registry
(include/clog/signal.hpp), and the queue-per-producer processors
(include/clog/item_processor.hpp, include/clog/task_processor.hpp).

The C++ sources are shallowly embedded: a buffer of raw cells becomes a
list of optional values (a logically empty cell is none), the sorted
occupied-index vector becomes a sorted list of naturals, and callbacks /
queued items that can call back into the container are modelled as small
command values interpreted against the container state.
-/

namespace Clog

/-! ## Slot store: `clg::unsafe_rcv` (rcv.hpp)

A cell buffer is a `List (Option V)`; `none` is a logically empty
(destructed / never constructed) cell.  `current` is the sorted vector of
occupied indices (`vectors::sorted::unique::checked::vector<size_t>`),
`next` is the cached cursor `next_`. -/
/-- `rcv_default_resize_strategy::resize`. -/
def resizeStrategy (currentSize requiredSize : Nat) : Nat :=
  if currentSize ≥ requiredSize then currentSize else requiredSize * 2

/-- Sorted-unique insert (`vectors::sorted::unique::checked::insert`); if the
value is already present the source asserts and inserts nothing. -/
def sortedInsert : List Nat → Nat → List Nat
  | [], v => [v]
  | x :: xs, v =>
    if v < x then v :: x :: xs
    else if v = x then x :: xs
    else x :: sortedInsert xs v

/-- Sorted erase (`vectors::sorted::unique::checked::erase`, which removes
every element equal to the value). -/
def sortedErase (l : List Nat) (v : Nat) : List Nat :=
  l.filter (fun x => decide (x ≠ v))

/-- State of a `clg::unsafe_rcv<V>`. -/
structure Rcv (V : Type) where
  next : Nat
  buffer : List (Option V)
  current : List Nat
deriving DecidableEq

/-- A default-constructed `unsafe_rcv`. -/
def rcvEmpty {V : Type} : Rcv V := ⟨0, [], []⟩

/-- The while loop of `detail::find_next_empty_cell`: advance `n` past every
index that is `< cap` and currently occupied.  The narrowing `lower_bound`
range in the source is equivalent to a membership test because `current` is
sorted.  Structural fuel (`cap` always suffices, since the loop stops as
soon as `n ≥ cap`). -/
def advanceNext (current : List Nat) (cap : Nat) : Nat → Nat → Nat
  | 0, n => n
  | fuel + 1, n =>
    if n < cap ∧ n ∈ current then advanceNext current cap fuel (n + 1) else n

/-- `detail::find_next_empty_cell`: returns the old cursor value and the new
cursor (`out { (*next)++ }` followed by the advance loop). -/
def findNextEmptyCell (current : List Nat) (cap next : Nat) : Nat × Nat :=
  (next, advanceNext current cap cap (next + 1))

/-- `unsafe_rcv::resize`: grow the buffer to `newSize`, keeping every cell at
its old index (the source moves the occupied cells; fresh cells are
uninitialized, i.e. `none`). -/
def rcvResize {V : Type} (newSize : Nat) (s : Rcv V) : Rcv V :=
  if s.buffer.length ≥ newSize then s
  else { s with buffer := s.buffer ++ List.replicate (newSize - s.buffer.length) none }

/-- `unsafe_rcv::acquire`: take the cursor index, advance the cursor, resize
if the index is out of range, mark the index occupied and construct the
value there. -/
def rcvAcquire {V : Type} (v : V) (s : Rcv V) : Nat × Rcv V :=
  let cap := s.buffer.length
  let p := findNextEmptyCell s.current cap s.next
  let s₁ : Rcv V := { s with next := p.snd }
  let s₂ := if p.fst ≥ cap then rcvResize (resizeStrategy cap (p.fst + 1)) s₁ else s₁
  (p.fst, { s₂ with
    current := sortedInsert s₂.current p.fst
    buffer := s₂.buffer.set p.fst (some v) })

/-- `unsafe_rcv::release`: destruct the cell, mark the index free, and rewind
the cursor if the freed index is below it. -/
def rcvRelease {V : Type} (h : Nat) (s : Rcv V) : Rcv V :=
  { s with
    current := sortedErase s.current h
    buffer := s.buffer.set h none
    next := if h < s.next then h else s.next }

/-- `unsafe_rcv::get`: the raw cell content at the handle (the source
asserts occupancy and returns a pointer into the buffer). -/
def rcvGet {V : Type} (s : Rcv V) (h : Nat) : Option V :=
  s.buffer.getD h none

/-- A client operation on a slot store (no `acquire_at`). -/
inductive RcvOp (V : Type) where
  | acq (v : V)
  | rel (h : Nat)
deriving DecidableEq

/-- One operation applied to the store. -/
def rcvStep {V : Type} (s : Rcv V) : RcvOp V → Rcv V
  | .acq v => (rcvAcquire v s).snd
  | .rel h => rcvRelease h s

/-- A whole sequence of operations applied to the store. -/
def rcvExec {V : Type} (s : Rcv V) (ops : List (RcvOp V)) : Rcv V :=
  ops.foldl rcvStep s

/-- The slot-store invariant: occupied indices are sorted and in range, the
cursor never points at an occupied cell, and everything below the cursor is
occupied. -/
def RcvInv {V : Type} (s : Rcv V) : Prop :=
  s.current.Sorted (· < ·) ∧
  (∀ i ∈ s.current, i < s.buffer.length) ∧
  s.next ∉ s.current ∧
  (∀ i, i < s.next → i ∈ s.current)

/-- `unsafe_rcv::active_handles`: a copy of the occupied-index vector, which
is kept sorted, i.e. in index order. -/
def rcvActiveHandles {V : Type} (s : Rcv V) : List Nat :=
  s.current

/-- Handle `h` currently holds the value `v`: it is occupied and `get`
reads back exactly `v`. -/
def rcvHolds {V : Type} (h : Nat) (v : V) (s : Rcv V) : Prop :=
  h ∈ s.current ∧ rcvGet s h = some v

/-! ## Signal / dispatch registry (signal.hpp)

Callbacks interact with the signal only through `disconnect`, so a callback
value is modelled as the list of connection handles it disconnects when
invoked.  The `std::function` in a `cn_record` together with the
back-pointer to the connection body becomes `CnRecord`.  The
`unordered_set` of deferred disconnects becomes a duplicate-free list. -/
/-- A callback: the connection handles it disconnects when invoked. -/
abbrev Cb := List Nat

/-- `signal::cn_record`: the connection-body back-pointer (an index into the
world of bodies) plus the callback. -/
structure CnRecord where
  body : Nat
  cb : Cb
deriving DecidableEq

/-- State of a `clg::signal`: the connection store `cns_`, the visit
counter `visiting_` and the deferred-disconnect set. -/
structure SigState where
  cns : Rcv CnRecord
  visiting : Nat
  deferredDisconnect : List Nat
deriving DecidableEq

/-- A default-constructed signal. -/
def sigEmpty : SigState := ⟨rcvEmpty, 0, []⟩

/-- `std::unordered_set::insert`: add the element unless already present. -/
def setInsert (h : Nat) (l : List Nat) : List Nat :=
  if h ∈ l then l else l ++ [h]

/-- `signal::disconnect`: defer while a visit is in progress, otherwise
release the slot immediately. -/
def sigDisconnect (h : Nat) (s : SigState) : SigState :=
  if 0 < s.visiting then
    { s with deferredDisconnect := setInsert h s.deferredDisconnect }
  else
    { s with cns := rcvRelease h s.cns }

/-- The callback stored in slot `h` (`cns_.get(handle)->cb`). -/
def sigGetCb (s : SigState) (h : Nat) : Cb :=
  match rcvGet s.cns h with
  | some r => r.cb
  | none => []

/-- Invoking a callback: perform each of its disconnect requests. -/
def runCb (c : Cb) (s : SigState) : SigState :=
  c.foldl (fun st h => sigDisconnect h st) s

/-- The broadcast loop of `signal::operator()`: for each snapshotted handle,
if it is not in the deferred-disconnect set, invoke the callback stored in
its slot (in place, reading the current store).  Returns the list of
(handle, callback) pairs actually invoked. -/
def bcastLoop : List Nat → SigState → List (Nat × Cb) × SigState
  | [], s => ([], s)
  | h :: hs, s =>
    if h ∈ s.deferredDisconnect then bcastLoop hs s
    else
      let c := sigGetCb s h
      let s₁ := runCb c s
      let p := bcastLoop hs s₁
      ((h, c) :: p.fst, p.snd)

/-- One iteration of the `do_deferred_disconnections` while loop: swap the
deferred set into `to_disconnect_` and release every handle in it. -/
def flushDeferred (s : SigState) : SigState :=
  { s with
    cns := s.deferredDisconnect.foldl (fun r h => rcvRelease h r) s.cns
    deferredDisconnect := [] }

/-- The `do_deferred_disconnections` while loop, fuelled (releasing a slot
in this model cannot enqueue further disconnects, so one iteration always
empties the set, but the loop structure of the source is kept). -/
def doDeferredLoop : Nat → SigState → SigState
  | 0, s => s
  | fuel + 1, s =>
    if s.deferredDisconnect = [] then s else doDeferredLoop fuel (flushDeferred s)

/-- `signal::do_deferred_disconnections`. -/
def doDeferredDisconnections (s : SigState) : SigState :=
  doDeferredLoop (s.deferredDisconnect.length + 1) s

/-- `signal::operator()`: bump the visit counter, snapshot the live handles,
run the broadcast loop, drop the counter, and — only when this was the
outermost visit and disconnects were deferred — apply them (the source
first copies the connection store into a local, `save_cns`, purely to keep
reference-counted callbacks alive during the releases; that copy has no
observable effect on the state and is not represented). -/
def sigBroadcast (s : SigState) : List (Nat × Cb) × SigState :=
  let s₀ : SigState := { s with visiting := s.visiting + 1 }
  let handles := s₀.cns.current
  let p := bcastLoop handles s₀
  let s₁ : SigState := { p.snd with visiting := p.snd.visiting - 1 }
  if 0 < s₁.visiting ∨ s₁.deferredDisconnect = [] then (p.fst, s₁)
  else (p.fst, doDeferredDisconnections s₁)

/-- `signal::connect` followed by the `cn` constructor's `update` call:
acquire a slot, store the callback, and point the record at the
connection body `bodyIdx`. -/
def sigConnect (c : Cb) (bodyIdx : Nat) (s : SigState) : Nat × SigState :=
  let p := rcvAcquire (CnRecord.mk bodyIdx c) s.cns
  (p.fst, { s with cns := p.snd })

/-- Modelled from the spec: the broadcast described by the specification,
which is missing from the source — "Before invoking, implementations MUST
copy the callback out of its slot into a local list first, then invoke
from the local copies — not invoke in place".  Kept for comparison with
`sigBroadcast`, which is translated from `signal::operator()`. -/
def sigBroadcastCopyFirst (s : SigState) : List (Nat × Cb) × SigState :=
  let s₀ : SigState := { s with visiting := s.visiting + 1 }
  let handles := s₀.cns.current
  let localCopies := handles.map (fun h => (h, sigGetCb s₀ h))
  let s₁ := localCopies.foldl (fun st q => runCb q.snd st) s₀
  let s₂ : SigState := { s₁ with visiting := s₁.visiting - 1 }
  if 0 < s₂.visiting ∨ s₂.deferredDisconnect = [] then (localCopies, s₂)
  else (localCopies, doDeferredDisconnections s₂)

/-- Concrete two-connection signal for C3: the callback of handle 0
disconnects handle 1; the callback of handle 1 does nothing. -/
def c3StateRel : SigState := (sigConnect [] 1 (sigConnect [1] 0 sigEmpty).snd).snd

/-- The same signal but with no disconnect performed during the visit. -/
def c3StateNoop : SigState := (sigConnect [] 1 (sigConnect [] 0 sigEmpty).snd).snd

/-- Concrete two-connection signal for C4: the callback of handle 0
disconnects handle 1; the callback of handle 1 does nothing. -/
def c4State : SigState := (sigConnect [] 1 (sigConnect [1] 0 sigEmpty).snd).snd

/-! ### Signal destruction and connection tokens (C6)

A `cn` token owns a `cn_body` whose `signal` pointer the registry nulls on
destruction; the record in the registry points back at that body.  Bodies
live in a world-level list: `true` means the body still points at the
signal, `false` means it was nulled. -/
/-- A `clg::cn` token: the index of its `cn_body` and its slot handle. -/
structure CnToken where
  bodyIdx : Nat
  handle : Nat
deriving DecidableEq

/-- A signal together with the connection bodies of its outstanding
tokens. -/
structure SigWorld where
  sig : SigState
  bodies : List Bool
  sigAlive : Bool
deriving DecidableEq

/-- `signal::~signal`: null the body back-reference of every live record
(`cns_.get(handle)->body->signal = {}`), flush pending deferred
disconnects, enqueue every live handle as deferred, and flush again. -/
def destroySignal (w : SigWorld) : SigWorld :=
  let handles := w.sig.cns.current
  let bodies₁ := handles.foldl (fun bs h =>
    match rcvGet w.sig.cns h with
    | some r => bs.set r.body false
    | none => bs) w.bodies
  let sig₁ := doDeferredDisconnections w.sig
  let sig₂ : SigState := { sig₁ with
    deferredDisconnect :=
      handles.foldl (fun d h => setInsert h d) sig₁.deferredDisconnect }
  let sig₃ := doDeferredDisconnections sig₂
  { sig := sig₃, bodies := bodies₁, sigAlive := false }

/-- `cn::~cn`: a no-op when the body's signal pointer is null, otherwise a
disconnect through the back-reference. -/
def destroyCn (t : CnToken) (w : SigWorld) : SigWorld :=
  if w.bodies.getD t.bodyIdx false then
    { w with sig := sigDisconnect t.handle w.sig }
  else w

/-! ## Serial / coalescing processor (item_processor.hpp, `q::serial_processor<T>`;
`serial_task_processor` in task_processor.hpp is the same structure with
`T = task_t`)

Queued items may re-enter the processor when the consumer's functor runs
them, so the interpreter is parametrised by an action `act` describing
what processing one item does to the processor state.  A cell of the
indexed item list is `Option V`: `none` is a default-constructed (falsy)
cell, matching the `if (indexed_items_[index])` occupancy test. -/
/-- `serial_processor::slot::item_vector`. -/
structure ItemVec (V : Type) where
  items : List V
  indexedItems : List (Option V)
  indices : List Nat
deriving DecidableEq

/-- A default-constructed item vector. -/
def ivEmpty {V : Type} : ItemVec V := ⟨[], [], []⟩

/-- `item_vector::clear`: returns `items_.size() + indices_.size()`. -/
def ivClear {V : Type} (iv : ItemVec V) : Int × ItemVec V :=
  ((iv.items.length : Int) + iv.indices.length, ivEmpty)

/-- `item_vector::push(item)`. -/
def ivPush {V : Type} (v : V) (iv : ItemVec V) : Int × ItemVec V :=
  (1, { iv with items := iv.items ++ [v] })

/-- `item_vector::push(item, index)`: grow the indexed list on demand; if
the cell for this index is already set, silently drop the push. -/
def ivPushIndexed {V : Type} (v : V) (idx : Nat) (iv : ItemVec V) : Int × ItemVec V :=
  let ii := if iv.indexedItems.length ≤ idx
    then iv.indexedItems ++ List.replicate (idx + 1 - iv.indexedItems.length) none
    else iv.indexedItems
  if (ii.getD idx none).isSome then (0, { iv with indexedItems := ii })
  else (1, { iv with
    indexedItems := ii.set idx (some v)
    indices := iv.indices ++ [idx] })

/-- The items `item_vector::process_all` hands to the processor functor, in
order: the plain items, then the indexed items in push order. -/
def ivProcessList {V : Type} (iv : ItemVec V) : List V :=
  iv.items ++ iv.indices.filterMap (fun i => iv.indexedItems.getD i none)

/-- `serial_processor::slot`. -/
structure PSlot (V : Type) where
  processing : Bool
  totalItems : Int
  items : ItemVec V
  pushedWhileProcessing : ItemVec V
deriving DecidableEq

/-- A default-constructed slot. -/
def slotEmpty {V : Type} : PSlot V := ⟨false, 0, ivEmpty, ivEmpty⟩

/-- `slot::clear`. -/
def slotClear {V : Type} (sl : PSlot V) : Int × PSlot V :=
  ((ivClear sl.items).fst + (ivClear sl.pushedWhileProcessing).fst,
    { sl with totalItems := 0, items := ivEmpty, pushedWhileProcessing := ivEmpty })

/-- `slot::is_empty`. -/
def slotIsEmpty {V : Type} (sl : PSlot V) : Bool :=
  decide (sl.totalItems ≤ 0)

/-- `slot::push(item)`. -/
def slotPush {V : Type} (v : V) (sl : PSlot V) : Int × PSlot V :=
  if sl.processing then
    let p := ivPush v sl.pushedWhileProcessing
    (p.fst, { sl with pushedWhileProcessing := p.snd, totalItems := sl.totalItems + p.fst })
  else
    let p := ivPush v sl.items
    (p.fst, { sl with items := p.snd, totalItems := sl.totalItems + p.fst })

/-- `slot::push(item, index)`. -/
def slotPushIndexed {V : Type} (v : V) (idx : Nat) (sl : PSlot V) : Int × PSlot V :=
  if sl.processing then
    let p := ivPushIndexed v idx sl.pushedWhileProcessing
    (p.fst, { sl with pushedWhileProcessing := p.snd, totalItems := sl.totalItems + p.fst })
  else
    let p := ivPushIndexed v idx sl.items
    (p.fst, { sl with items := p.snd, totalItems := sl.totalItems + p.fst })

/-- State of a `serial_processor<V>`.  Its `clg::stable_vector<slot>` is
modelled at the container interface: an association list of live
(handle, slot) pairs plus a fresh-handle counter (`add` yields a fresh
handle, `erase` removes the pair, `operator[]` looks the handle up). -/
structure SProc (V : Type) where
  slots : List (Nat × PSlot V)
  nextSlot : Nat
  busySlots : List Nat
  deferredRelease : List Nat
  totalItems : Int
deriving DecidableEq

/-- A default-constructed serial processor. -/
def sprocEmpty {V : Type} : SProc V := ⟨[], 0, [], [], 0⟩

/-- `slots_[handle]` (lookup). -/
def lookupSlot {V : Type} (h : Nat) (st : SProc V) : Option (PSlot V) :=
  (st.slots.find? (fun q => q.fst == h)).map Prod.snd

/-- Write back the slot stored under a handle. -/
def setSlot {V : Type} (h : Nat) (sl : PSlot V) (st : SProc V) : SProc V :=
  { st with slots := st.slots.map (fun q => if q.fst = h then (h, sl) else q) }

/-- `slots_.erase(handle)`. -/
def eraseSlotList {V : Type} (h : Nat) (l : List (Nat × PSlot V)) : List (Nat × PSlot V) :=
  l.filter (fun q => decide (q.fst ≠ h))

/-- `serial_processor::make_pusher` (`slots_.add(slot{})`). -/
def serialMakePusher {V : Type} (st : SProc V) : Nat × SProc V :=
  (st.nextSlot,
    { st with slots := st.slots ++ [(st.nextSlot, slotEmpty)], nextSlot := st.nextSlot + 1 })

/-- `serial_processor::push(handle, item)`: push into the slot, add the
count to the processor total, and record the slot as busy if it just
became non-empty.  (A lookup failure is a contract violation in the
source; the model leaves the state unchanged.) -/
def serialPush {V : Type} (v : V) (h : Nat) (st : SProc V) : SProc V :=
  match lookupSlot h st with
  | none => st
  | some sl =>
    let wasEmpty := slotIsEmpty sl
    let p := slotPush v sl
    let st₁ := setSlot h p.snd { st with totalItems := st.totalItems + p.fst }
    if wasEmpty && !(slotIsEmpty p.snd) then
      { st₁ with busySlots := st₁.busySlots ++ [h] }
    else st₁

/-- `serial_processor::push(handle, item, index)`. -/
def serialPushIndexed {V : Type} (v : V) (idx h : Nat) (st : SProc V) : SProc V :=
  match lookupSlot h st with
  | none => st
  | some sl =>
    let wasEmpty := slotIsEmpty sl
    let p := slotPushIndexed v idx sl
    let st₁ := setSlot h p.snd { st with totalItems := st.totalItems + p.fst }
    if wasEmpty && !(slotIsEmpty p.snd) then
      { st₁ with busySlots := st₁.busySlots ++ [h] }
    else st₁

/-- `serial_processor::release_now`: clear the slot (dropping its pending
items from the total), erase it, and remove it from the busy list. -/
def serialReleaseNow {V : Type} (h : Nat) (st : SProc V) : SProc V :=
  match lookupSlot h st with
  | none => st
  | some sl =>
    { st with
      totalItems := st.totalItems - (slotClear sl).fst
      slots := eraseSlotList h st.slots
      busySlots := st.busySlots.erase h }

/-- `serial_processor::release`: defer while the slot is mid-processing,
otherwise release immediately. -/
def serialRelease {V : Type} (h : Nat) (st : SProc V) : SProc V :=
  match lookupSlot h st with
  | none => st
  | some sl =>
    if sl.processing then { st with deferredRelease := st.deferredRelease ++ [h] }
    else serialReleaseNow h st

/-- `slot::process_all` run against the whole processor state: raise the
processing flag, hand each pending item (plain first, then indexed in push
order) to the processor functor — which may re-enter the processor —, then
drop the flag, swap in the items pushed meanwhile and subtract the
processed count.  The item list is snapshotted up front, which matches the
in-place iteration of the source: while the flag is up, pushes to this
slot land in `pushed_while_processing_` and a release of this slot is
deferred, so its `items_` cannot change under the loop. -/
def slotProcessAll {V : Type} (act : V → SProc V → SProc V) (h : Nat) (st : SProc V) :
    Int × List V × SProc V :=
  match lookupSlot h st with
  | none => (0, [], st)
  | some sl =>
    let st₁ := setSlot h { sl with processing := true } st
    let itemList := ivProcessList sl.items
    let st₂ := itemList.foldl (fun acc v => act v acc) st₁
    let cnt : Int := (sl.items.items.length : Int) + sl.items.indices.length
    match lookupSlot h st₂ with
    | none => (cnt, itemList, st₂)
    | some sl₂ =>
      (cnt, itemList,
        setSlot h { sl₂ with
          processing := false
          items := sl₂.pushedWhileProcessing
          pushedWhileProcessing := ivEmpty
          totalItems := sl₂.totalItems - cnt } st₂)

/-- The inner for loop of `serial_processor::process_all` over a copy of
the busy-slot list: skip empty slots, process the rest, break as soon as
the total reaches zero. -/
def processBusyList {V : Type} (act : V → SProc V → SProc V) :
    List Nat → SProc V → List V × SProc V
  | [], st => ([], st)
  | h :: hs, st =>
    match lookupSlot h st with
    | none => processBusyList act hs st
    | some sl =>
      if slotIsEmpty sl then processBusyList act hs st
      else
        let r := slotProcessAll act h st
        let st₂ : SProc V := { r.snd.snd with totalItems := r.snd.snd.totalItems - r.fst }
        if st₂.totalItems = 0 then (r.snd.fst, st₂)
        else
          let q := processBusyList act hs st₂
          (r.snd.fst ++ q.fst, q.snd)

/-- The outer while loop of `serial_processor::process_all`, fuelled. -/
def serialLoop {V : Type} (act : V → SProc V → SProc V) :
    Nat → SProc V → List V × SProc V
  | 0, st => ([], st)
  | fuel + 1, st =>
    if 0 < st.totalItems then
      let p := processBusyList act st.busySlots st
      let q := serialLoop act fuel p.snd
      (p.fst ++ q.fst, q.snd)
    else ([], st)

/-- `serial_processor::process_all`: drain busy slots until the total hits
zero, clear the busy list, then apply every deferred release and clear the
deferred list. -/
def serialProcessAll {V : Type} (act : V → SProc V → SProc V) (fuel : Nat)
    (st : SProc V) : List V × SProc V :=
  let p := serialLoop act fuel st
  let st₁ : SProc V := { p.snd with busySlots := [] }
  let st₂ := st₁.deferredRelease.foldl (fun s h => serialReleaseNow h s) st₁
  (p.fst, { st₂ with deferredRelease := [] })

/-- A processor functor that only consumes the item and does not re-enter
the processor (the common case for the consumer's callback). -/
def pureAct {V : Type} : V → SProc V → SProc V := fun _ st => st

/-- An item that can call back into the serial processor: either inert, or
a release of a slot (what a pusher's destruction performs). -/
inductive SCmd where
  | noop
  | releaseSlot (h : Nat)
deriving DecidableEq

/-- Interpret one queued command against the processor. -/
def applySCmd (c : SCmd) (st : SProc SCmd) : SProc SCmd :=
  match c with
  | .noop => st
  | .releaseSlot h => serialRelease h st

/-- C7 counterexample state: a fresh serial processor with one pusher,
after `push_indexed(0, 1)` then `push_indexed(0, 2)`. -/
def c7State : SProc Nat :=
  serialPushIndexed 2 0 (serialMakePusher (sprocEmpty (V := Nat))).fst
    (serialPushIndexed 1 0 (serialMakePusher (sprocEmpty (V := Nat))).fst
      (serialMakePusher (sprocEmpty (V := Nat))).snd)

/-- C8 scenario state: one pusher whose queue holds a command releasing its
own slot followed by an inert command. -/
def c8State : SProc SCmd :=
  serialPush SCmd.noop (serialMakePusher (sprocEmpty (V := SCmd))).fst
    (serialPush (SCmd.releaseSlot 0) (serialMakePusher (sprocEmpty (V := SCmd))).fst
      (serialMakePusher (sprocEmpty (V := SCmd))).snd)

/-! ## Lock-free processor (item_processor.hpp
`detail::lock_free_queue_may_allocate_on_process` / `lock_free_processor`;
`lock_free_task_processor::queue` in task_processor.hpp is the same
double-buffer logic)

An SPSC queue (`QueueImpl`) is its FIFO contents; the declared capacity
only feeds the growth heuristic because the provided moodycamel
implementation never drops a push (a release build allocates instead). -/
/-- A pusher's double-buffered queue: the size target `size_`, the two
buffers `queue_pair_`, and the active index `push_index_` (`false` selects
buffer 0). -/
structure LFQueue (V : Type) where
  size : Nat
  q0 : List V
  q1 : List V
  pushIndex : Bool
deriving DecidableEq

/-- The queue constructor: one initial-size buffer and one default buffer,
both empty; buffer 0 active. -/
def lfqNew (V : Type) (initialSize : Nat) : LFQueue V :=
  ⟨initialSize, [], [], false⟩

/-- `queue_pair_[b]`. -/
def lfqBuf {V : Type} (b : Bool) (q : LFQueue V) : List V :=
  if b then q.q1 else q.q0

/-- Replace `queue_pair_[b]`. -/
def lfqSetBuf {V : Type} (b : Bool) (l : List V) (q : LFQueue V) : LFQueue V :=
  if b then { q with q1 := l } else { q with q0 := l }

/-- `queue::push`: enqueue onto the buffer the active index designates. -/
def lfqPush {V : Type} (v : V) (q : LFQueue V) : LFQueue V :=
  lfqSetBuf q.pushIndex (lfqBuf q.pushIndex q ++ [v]) q

/-- `queue::process_all()`: if the active buffer's occupancy exceeds half
the size target, double the target, replace the inactive buffer by a fresh
(larger) empty one, flip the active index, and drain the old buffer fully
before draining the new active buffer; otherwise just drain the active
buffer.  Draining a buffer (`process_all(QueueImpl*)`) pops until empty,
yielding the items in FIFO order. -/
def lfqProcessAll {V : Type} (q : LFQueue V) : List V × LFQueue V :=
  if (lfqBuf q.pushIndex q).length > q.size / 2 then
    let q₁ := lfqSetBuf (!q.pushIndex) [] { q with size := q.size * 2 }
    let q₂ : LFQueue V := { q₁ with pushIndex := !q₁.pushIndex }
    let d₁ := lfqBuf (!q₂.pushIndex) q₂
    let q₃ := lfqSetBuf (!q₂.pushIndex) [] q₂
    let d₂ := lfqBuf q₃.pushIndex q₃
    let q₄ := lfqSetBuf q₃.pushIndex [] q₃
    (d₁ ++ d₂, q₄)
  else
    (lfqBuf q.pushIndex q, lfqSetBuf q.pushIndex [] q)

/-- `lock_free_processor`: pusher bodies in index order, the lists of
pushers created or released during a processing pass, and the processing
flag. -/
structure LFProc (V : Type) where
  pushers : List (LFQueue V)
  deferredAdd : List (LFQueue V)
  deferredRemove : List Nat
  processing : Bool
deriving DecidableEq

/-- `lock_free_processor::process_all` with a pure consumer functor: drain
every pusher's queue in order, then apply the deferred removals and append
the deferred additions.  (The source walks `deferred_remove_` from the
back with a `size_t` counter whose final decrement wraps around instead of
ending the loop; the model performs the intended reverse-order erases.)
Returns every item handed to the consumer. -/
def lfProcessAll {V : Type} (st : LFProc V) : List V × LFProc V :=
  let drained := st.pushers.map lfqProcessAll
  let executed := (drained.map Prod.fst).join
  let pushers₁ := drained.map Prod.snd
  let pushers₂ := st.deferredRemove.reverse.foldl (fun ps i => ps.eraseIdx i) pushers₁
  (executed,
    { pushers := pushers₂ ++ st.deferredAdd
      deferredAdd := []
      deferredRemove := []
      processing := false })

/-- Build a pusher's queue: a fresh queue of the given initial size with
the given items pushed in order. -/
def lfBuild {V : Type} (c : Nat × List V) : LFQueue V :=
  c.snd.foldl (fun q v => lfqPush v q) (lfqNew V c.fst)

/-! ## Pushers (C10)

Every pusher type guards `push` and its destructor on the processor
back-pointer, which is nulled by `release()` and by moving from the
pusher, and is null in a default-constructed pusher. -/
/-- `q::lock_free_pusher`: the processor pointer (`none` when released,
moved from, or default-constructed) and the body, identified by its index
in the processor's pusher list. -/
structure LFPusher where
  processor : Option Unit
  bodyIdx : Nat
deriving DecidableEq

/-- A default-constructed lock-free pusher. -/
def lfPusherDefault : LFPusher := ⟨none, 0⟩

/-- `lock_free_pusher::push`: `if (!processor_) return;` then
`body_->q.push(item)`. -/
def lfPusherPush {V : Type} (p : LFPusher) (v : V) (st : LFProc V) : LFProc V :=
  match p.processor with
  | none => st
  | some _ =>
    { st with pushers :=
        st.pushers.mapIdx (fun i q => if i = p.bodyIdx then lfqPush v q else q) }

/-- `lock_free_processor::release_pusher`: defer while processing,
otherwise erase the body (the re-indexing of the remaining bodies is
implicit in the positional model). -/
def lfReleasePusher {V : Type} (index : Nat) (st : LFProc V) : LFProc V :=
  if st.processing then { st with deferredRemove := st.deferredRemove ++ [index] }
  else { st with pushers := st.pushers.eraseIdx index }

/-- `lock_free_pusher::release`: release through the processor and null the
back-pointer. -/
def lfPusherRelease {V : Type} (p : LFPusher) (st : LFProc V) : LFPusher × LFProc V :=
  (⟨none, p.bodyIdx⟩, lfReleasePusher p.bodyIdx st)

/-- `lock_free_pusher::~lock_free_pusher`: `if (!processor_) return;
release();`. -/
def lfPusherDestroy {V : Type} (p : LFPusher) (st : LFProc V) : LFProc V :=
  match p.processor with
  | none => st
  | some _ => (lfPusherRelease p st).snd

/-- Move construction: the target takes the fields, the source's processor
pointer is nulled. -/
def lfPusherMove (p : LFPusher) : LFPusher × LFPusher :=
  (⟨p.processor, p.bodyIdx⟩, ⟨none, p.bodyIdx⟩)

/-- `q::locking_processor<T>`: its `stable_vector` of mutex-guarded queues
at the container interface. -/
structure LockProc (V : Type) where
  queues : List (Nat × List V)
  nextH : Nat
deriving DecidableEq

/-- `locking_processor::push(handle, item)`. -/
def lockingPush {V : Type} (v : V) (h : Nat) (st : LockProc V) : LockProc V :=
  { st with queues :=
      st.queues.map (fun q => if q.fst = h then (q.fst, q.snd ++ [v]) else q) }

/-- `locking_processor::release(handle)`. -/
def lockingRelease {V : Type} (h : Nat) (st : LockProc V) : LockProc V :=
  { st with queues := st.queues.filter (fun q => decide (q.fst ≠ h)) }

/-- `q::locking_pusher`. -/
structure LockingPusher where
  processor : Option Unit
  handle : Nat
deriving DecidableEq

/-- A default-constructed locking pusher. -/
def lockingPusherDefault : LockingPusher := ⟨none, 0⟩

/-- `locking_pusher::push`: guarded on the processor pointer. -/
def lockingPusherPush {V : Type} (p : LockingPusher) (v : V) (st : LockProc V) :
    LockProc V :=
  match p.processor with
  | none => st
  | some _ => lockingPush v p.handle st

/-- `locking_pusher::release`. -/
def lockingPusherRelease {V : Type} (p : LockingPusher) (st : LockProc V) :
    LockingPusher × LockProc V :=
  (⟨none, p.handle⟩, lockingRelease p.handle st)

/-- `locking_pusher::~locking_pusher`. -/
def lockingPusherDestroy {V : Type} (p : LockingPusher) (st : LockProc V) :
    LockProc V :=
  match p.processor with
  | none => st
  | some _ => (lockingPusherRelease p st).snd

/-- Move construction for the locking pusher. -/
def lockingPusherMove (p : LockingPusher) : LockingPusher × LockingPusher :=
  (⟨p.processor, p.handle⟩, ⟨none, p.handle⟩)

/-- `q::serial_pusher`. -/
structure SerialPusher where
  processor : Option Unit
  slot : Nat
deriving DecidableEq

/-- A default-constructed serial pusher. -/
def serialPusherDefault : SerialPusher := ⟨none, 0⟩

/-- `serial_pusher::push`: guarded on the processor pointer. -/
def serialPusherPush {V : Type} (p : SerialPusher) (v : V) (st : SProc V) : SProc V :=
  match p.processor with
  | none => st
  | some _ => serialPush v p.slot st

/-- `serial_pusher::release`. -/
def serialPusherRelease {V : Type} (p : SerialPusher) (st : SProc V) :
    SerialPusher × SProc V :=
  (⟨none, p.slot⟩, serialRelease p.slot st)

/-- `serial_pusher::~serial_pusher`. -/
def serialPusherDestroy {V : Type} (p : SerialPusher) (st : SProc V) : SProc V :=
  match p.processor with
  | none => st
  | some _ => (serialPusherRelease p st).snd

/-- Move construction for the serial pusher. -/
def serialPusherMove (p : SerialPusher) : SerialPusher × SerialPusher :=
  (⟨p.processor, p.slot⟩, ⟨none, p.slot⟩)

/-! ## Concrete instances used by the witness theorems -/
/-- A three-connection signal whose middle callback disconnects itself. -/
def c5State : SigState :=
  (sigConnect [] 2 (sigConnect [1] 1 (sigConnect [] 0 sigEmpty).snd).snd).snd

/-- A world with one signal connection whose token body has index 0. -/
def c6World : SigWorld := ⟨(sigConnect [] 0 sigEmpty).snd, [true], true⟩

/-- A serial processor whose only slot is flagged as mid-processing. -/
def c8ProcState : SProc Nat := ⟨[(0, ⟨true, 0, ivEmpty, ivEmpty⟩)], 1, [], [], 0⟩

/-! ## List helper lemmas used throughout -/
theorem listGetD_set_self {α : Type} (d : α) :
    ∀ (l : List α) (i : Nat) (v : α), i < l.length →
      (l.set i v).getD i d = v := by
  intro l
  induction l with
  | nil => intro i v h; simp at h
  | cons x xs ih =>
    intro i v h
    cases i with
    | zero => simp [List.set, List.getD]
    | succ n =>
      simp only [List.set, List.getD_cons_succ]
      exact ih n v (by simpa using h)

theorem listGetD_set_ne {α : Type} (d : α) :
    ∀ (l : List α) (i j : Nat) (v : α), i ≠ j →
      (l.set i v).getD j d = l.getD j d := by
  intro l
  induction l with
  | nil => intro i j v _; simp [List.set]
  | cons x xs ih =>
    intro i j v hij
    cases i with
    | zero =>
      cases j with
      | zero => exact absurd rfl hij
      | succ m => simp [List.set, List.getD]
    | succ n =>
      cases j with
      | zero => simp [List.set, List.getD]
      | succ m =>
        simp only [List.set, List.getD_cons_succ]
        exact ih n m v (fun h => hij (by rw [h]))

theorem listGetD_append_left {α : Type} (d : α) :
    ∀ (l₁ l₂ : List α) (i : Nat), i < l₁.length →
      (l₁ ++ l₂).getD i d = l₁.getD i d := by
  intro l₁
  induction l₁ with
  | nil => intro l₂ i h; simp at h
  | cons x xs ih =>
    intro l₂ i h
    cases i with
    | zero => simp [List.getD]
    | succ n =>
      simp only [List.cons_append, List.getD_cons_succ]
      exact ih l₂ n (by simpa using h)

/-! ### Lemmas about the sorted occupied-index vector -/
theorem mem_sortedInsert (v : Nat) :
    ∀ (l : List Nat) (a : Nat), a ∈ sortedInsert l v ↔ a = v ∨ a ∈ l := by
  intro l
  induction l with
  | nil => intro a; simp [sortedInsert]
  | cons x xs ih =>
    intro a
    by_cases h₁ : v < x
    · simp only [sortedInsert, if_pos h₁, List.mem_cons]
    · by_cases h₂ : v = x
      · subst h₂
        simp only [sortedInsert, if_neg h₁, if_true, List.mem_cons, eq_self_iff_true,
          ite_true]
        tauto
      · simp only [sortedInsert, if_neg h₁, if_neg h₂, List.mem_cons, ih]
        tauto

theorem sorted_sortedInsert (v : Nat) :
    ∀ (l : List Nat), l.Sorted (· < ·) → (sortedInsert l v).Sorted (· < ·) := by
  intro l
  induction l with
  | nil => intro _; simp [sortedInsert]
  | cons x xs ih =>
    intro hs
    rw [List.sorted_cons] at hs
    obtain ⟨hx, hxs⟩ := hs
    by_cases h₁ : v < x
    · simp only [sortedInsert, if_pos h₁]
      rw [List.sorted_cons]
      refine ⟨?_, ?_⟩
      · intro b hb
        rcases List.mem_cons.mp hb with hb | hb
        · omega
        · exact lt_trans h₁ (hx b hb)
      · rw [List.sorted_cons]; exact ⟨hx, hxs⟩
    · by_cases h₂ : v = x
      · subst h₂
        simp only [sortedInsert, if_neg h₁, eq_self_iff_true, ite_true]
        rw [List.sorted_cons]; exact ⟨hx, hxs⟩
      · simp only [sortedInsert, if_neg h₁, if_neg h₂]
        rw [List.sorted_cons]
        refine ⟨?_, ih hxs⟩
        intro b hb
        rcases (mem_sortedInsert v xs b).mp hb with hb | hb
        · omega
        · exact hx b hb

theorem mem_sortedErase (l : List Nat) (v a : Nat) :
    a ∈ sortedErase l v ↔ a ∈ l ∧ a ≠ v := by
  simp [sortedErase, List.mem_filter]

theorem sorted_sortedErase (l : List Nat) (v : Nat) (hs : l.Sorted (· < ·)) :
    (sortedErase l v).Sorted (· < ·) :=
  hs.filter _

/-! ### Lemmas about the cursor-advance loop -/
theorem advanceNext_le (current : List Nat) (cap : Nat) :
    ∀ (fuel n : Nat), n ≤ advanceNext current cap fuel n := by
  intro fuel
  induction fuel with
  | zero => intro n; simp [advanceNext]
  | succ f ih =>
    intro n
    simp only [advanceNext]
    split
    · exact le_trans (Nat.le_succ n) (ih (n + 1))
    · exact le_rfl

theorem advanceNext_skips (current : List Nat) (cap : Nat) :
    ∀ (fuel n m : Nat), n ≤ m → m < advanceNext current cap fuel n →
      m ∈ current ∧ m < cap := by
  intro fuel
  induction fuel with
  | zero =>
    intro n m hnm hlt
    simp [advanceNext] at hlt
    omega
  | succ f ih =>
    intro n m hnm hlt
    simp only [advanceNext] at hlt
    by_cases hc : n < cap ∧ n ∈ current
    · rw [if_pos hc] at hlt
      rcases Nat.eq_or_lt_of_le hnm with he | hlt'
      · exact he ▸ ⟨hc.2, hc.1⟩
      · exact ih (n + 1) m hlt' hlt
    · rw [if_neg hc] at hlt
      omega

theorem advanceNext_free (current : List Nat) (cap : Nat) :
    ∀ (fuel n : Nat), cap ≤ fuel + n →
      cap ≤ advanceNext current cap fuel n ∨ advanceNext current cap fuel n ∉ current := by
  intro fuel
  induction fuel with
  | zero =>
    intro n h
    simp only [advanceNext]
    exact Or.inl (by omega)
  | succ f ih =>
    intro n h
    simp only [advanceNext]
    by_cases hc : n < cap ∧ n ∈ current
    · rw [if_pos hc]
      exact ih (n + 1) (by omega)
    · rw [if_neg hc]
      by_cases hn : n < cap
      · right
        intro hmem
        exact hc ⟨hn, hmem⟩
      · exact Or.inl (by omega)

/-! ### Characterization of acquire, and invariant preservation -/
theorem rcvAcquire_eq {V : Type} (v : V) (s : Rcv V) :
    rcvAcquire v s =
      (s.next,
        { next := advanceNext s.current s.buffer.length s.buffer.length (s.next + 1)
          buffer := (if s.buffer.length ≤ s.next
              then s.buffer ++ List.replicate ((s.next + 1) * 2 - s.buffer.length) none
              else s.buffer).set s.next (some v)
          current := sortedInsert s.current s.next }) := by
  by_cases hc : s.buffer.length ≤ s.next
  · have h₁ : ¬ s.buffer.length ≥ s.next + 1 := by omega
    have h₂ : ¬ s.buffer.length ≥ (s.next + 1) * 2 := by omega
    simp only [rcvAcquire, findNextEmptyCell, rcvResize, resizeStrategy, ge_iff_le,
      if_pos hc, if_neg h₁, if_neg h₂]
  · have h₁ : ¬ s.next ≥ s.buffer.length := by omega
    simp only [rcvAcquire, findNextEmptyCell, rcvResize, resizeStrategy, ge_iff_le, hc,
      if_neg h₁, if_false]

theorem rcvAcquire_buffer_length {V : Type} (v : V) (s : Rcv V) :
    s.next < ((rcvAcquire v s).snd).buffer.length ∧
      s.buffer.length ≤ ((rcvAcquire v s).snd).buffer.length := by
  rw [rcvAcquire_eq]
  simp only [List.length_set]
  by_cases hc : s.buffer.length ≤ s.next
  · rw [if_pos hc]
    simp only [List.length_append, List.length_replicate]
    omega
  · rw [if_neg hc]
    omega

theorem rcvInv_acquire {V : Type} (v : V) (s : Rcv V) (hI : RcvInv s) :
    RcvInv (rcvAcquire v s).snd ∧ (rcvAcquire v s).fst = s.next ∧
      (rcvAcquire v s).fst ∉ s.current := by
  obtain ⟨hSort, hBound, hNext, hBelow⟩ := hI
  refine ⟨?_, by rw [rcvAcquire_eq], by rw [rcvAcquire_eq]; exact hNext⟩
  have hadv := advanceNext_free s.current s.buffer.length s.buffer.length (s.next + 1)
    (by omega)
  have hle := advanceNext_le s.current s.buffer.length s.buffer.length (s.next + 1)
  have hLen : s.next <
      (if s.buffer.length ≤ s.next
        then s.buffer ++ List.replicate ((s.next + 1) * 2 - s.buffer.length) none
        else s.buffer).length ∧
      s.buffer.length ≤
      (if s.buffer.length ≤ s.next
        then s.buffer ++ List.replicate ((s.next + 1) * 2 - s.buffer.length) none
        else s.buffer).length := by
    by_cases hc : s.buffer.length ≤ s.next
    · rw [if_pos hc]
      simp only [List.length_append, List.length_replicate]
      omega
    · rw [if_neg hc]
      omega
  have hnext₂ : (rcvAcquire v s).snd.next =
      advanceNext s.current s.buffer.length s.buffer.length (s.next + 1) := by
    rw [rcvAcquire_eq]
  have hcur₂ : (rcvAcquire v s).snd.current = sortedInsert s.current s.next := by
    rw [rcvAcquire_eq]
  have hbuf₂ : (rcvAcquire v s).snd.buffer =
      (if s.buffer.length ≤ s.next
        then s.buffer ++ List.replicate ((s.next + 1) * 2 - s.buffer.length) none
        else s.buffer).set s.next (some v) := by
    rw [rcvAcquire_eq]
  refine ⟨?_, ?_, ?_, ?_⟩
  · rw [hcur₂]
    exact sorted_sortedInsert s.next s.current hSort
  · intro i hi
    rw [hcur₂] at hi
    rw [hbuf₂]
    simp only [List.length_set]
    rcases (mem_sortedInsert s.next s.current i).mp hi with he | hm
    · subst he
      exact hLen.1
    · have h₁ : i < s.buffer.length := hBound i hm
      omega
  · rw [hnext₂, hcur₂]
    intro hmem
    rcases (mem_sortedInsert s.next s.current _).mp hmem with he | hm
    · omega
    · rcases hadv with hge | hnm
      · exact absurd (hBound _ hm) (by omega)
      · exact hnm hm
  · rw [hnext₂, hcur₂]
    intro i hi
    rcases Nat.lt_or_ge i s.next with h₁ | h₁
    · exact (mem_sortedInsert s.next s.current i).mpr (Or.inr (hBelow i h₁))
    · rcases Nat.eq_or_lt_of_le h₁ with he | h₂
      · exact (mem_sortedInsert s.next s.current i).mpr (Or.inl he.symm)
      · exact (mem_sortedInsert s.next s.current i).mpr
          (Or.inr (advanceNext_skips s.current s.buffer.length s.buffer.length
            (s.next + 1) i h₂ hi).1)

theorem rcvInv_release {V : Type} (h : Nat) (s : Rcv V) (hI : RcvInv s) :
    RcvInv (rcvRelease h s) := by
  obtain ⟨hSort, hBound, hNext, hBelow⟩ := hI
  refine ⟨sorted_sortedErase _ _ hSort, ?_, ?_, ?_⟩
  · intro i hi
    simp only [rcvRelease, List.length_set]
    exact hBound i ((mem_sortedErase _ _ _).mp hi).1
  · simp only [rcvRelease]
    by_cases hc : h < s.next
    · rw [if_pos hc]
      intro hmem
      exact ((mem_sortedErase _ _ _).mp hmem).2 rfl
    · rw [if_neg hc]
      intro hmem
      exact hNext ((mem_sortedErase _ _ _).mp hmem).1
  · simp only [rcvRelease]
    intro i hi
    by_cases hc : h < s.next
    · rw [if_pos hc] at hi
      exact (mem_sortedErase _ _ _).mpr ⟨hBelow i (by omega), by omega⟩
    · rw [if_neg hc] at hi
      exact (mem_sortedErase _ _ _).mpr ⟨hBelow i hi, by omega⟩

theorem rcvInv_step {V : Type} (s : Rcv V) (op : RcvOp V) (hI : RcvInv s) :
    RcvInv (rcvStep s op) := by
  cases op with
  | acq v => exact (rcvInv_acquire v s hI).1
  | rel h => exact rcvInv_release h s hI

theorem rcvInv_empty {V : Type} : RcvInv (rcvEmpty (V := V)) := by
  refine ⟨by simp [rcvEmpty], by simp [rcvEmpty], by simp [rcvEmpty], ?_⟩
  intro i hi
  simp [rcvEmpty] at hi

theorem rcvInv_exec {V : Type} :
    ∀ (ops : List (RcvOp V)) (s : Rcv V), RcvInv s → RcvInv (rcvExec s ops) := by
  intro ops
  induction ops with
  | nil => intro s hI; exact hI
  | cons op rest ih =>
    intro s hI
    exact ih (rcvStep s op) (rcvInv_step s op hI)

theorem rcvRelease_current {V : Type} (h : Nat) (s : Rcv V) :
    (rcvRelease h s).current = sortedErase s.current h := rfl

theorem rcvRelease_buffer {V : Type} (h : Nat) (s : Rcv V) :
    (rcvRelease h s).buffer = s.buffer.set h none := rfl

theorem rcvHolds_acquire {V : Type} (v : V) (s : Rcv V) (hI : RcvInv s) :
    rcvHolds (rcvAcquire v s).fst v (rcvAcquire v s).snd := by
  have hfst : (rcvAcquire v s).fst = s.next := by rw [rcvAcquire_eq]
  have hcur₂ : (rcvAcquire v s).snd.current = sortedInsert s.current s.next := by
    rw [rcvAcquire_eq]
  have hbuf₂ : (rcvAcquire v s).snd.buffer =
      (if s.buffer.length ≤ s.next
        then s.buffer ++ List.replicate ((s.next + 1) * 2 - s.buffer.length) none
        else s.buffer).set s.next (some v) := by
    rw [rcvAcquire_eq]
  have hLen : s.next <
      (if s.buffer.length ≤ s.next
        then s.buffer ++ List.replicate ((s.next + 1) * 2 - s.buffer.length) none
        else s.buffer).length := by
    by_cases hc : s.buffer.length ≤ s.next
    · rw [if_pos hc]
      simp only [List.length_append, List.length_replicate]
      omega
    · rw [if_neg hc]
      omega
  constructor
  · rw [hfst, hcur₂]
    exact (mem_sortedInsert s.next s.current s.next).mpr (Or.inl rfl)
  · rw [rcvGet, hfst, hbuf₂]
    exact listGetD_set_self none _ s.next (some v) hLen

theorem rcvHolds_step {V : Type} (h : Nat) (v : V) (s : Rcv V) (op : RcvOp V)
    (hI : RcvInv s) (hH : rcvHolds h v s) (hne : op ≠ RcvOp.rel h) :
    rcvHolds h v (rcvStep s op) := by
  obtain ⟨hmem, hget⟩ := hH
  cases op with
  | acq w =>
    have hidx : s.next ≠ h := fun e => hI.2.2.1 (e ▸ hmem)
    have hcur₂ : (rcvAcquire w s).snd.current = sortedInsert s.current s.next := by
      rw [rcvAcquire_eq]
    have hbuf₂ : (rcvAcquire w s).snd.buffer =
        (if s.buffer.length ≤ s.next
          then s.buffer ++ List.replicate ((s.next + 1) * 2 - s.buffer.length) none
          else s.buffer).set s.next (some w) := by
      rw [rcvAcquire_eq]
    have hlt : h < s.buffer.length := hI.2.1 h hmem
    constructor
    · show h ∈ (rcvAcquire w s).snd.current
      rw [hcur₂]
      exact (mem_sortedInsert s.next s.current h).mpr (Or.inr hmem)
    · show rcvGet (rcvAcquire w s).snd h = some v
      rw [rcvGet, hbuf₂, listGetD_set_ne none _ _ _ _ hidx]
      by_cases hc : s.buffer.length ≤ s.next
      · rw [if_pos hc, listGetD_append_left none _ _ _ hlt]
        exact hget
      · rw [if_neg hc]
        exact hget
  | rel g =>
    have hne' : g ≠ h := fun e => hne (by rw [e])
    constructor
    · show h ∈ (rcvRelease g s).current
      rw [rcvRelease_current]
      exact (mem_sortedErase _ _ _).mpr ⟨hmem, fun e => hne' e.symm⟩
    · show rcvGet (rcvRelease g s) h = some v
      rw [rcvGet, rcvRelease_buffer, listGetD_set_ne none _ _ _ _ hne']
      exact hget

theorem rcvHolds_exec {V : Type} (h : Nat) (v : V) :
    ∀ (ops : List (RcvOp V)) (s : Rcv V), RcvInv s → rcvHolds h v s →
      RcvOp.rel h ∉ ops → rcvHolds h v (rcvExec s ops) := by
  intro ops
  induction ops with
  | nil => exact fun s _ hH _ => hH
  | cons op rest ih =>
    intro s hI hH hmem
    have h₁ : op ≠ RcvOp.rel h := fun e => hmem (by rw [e]; exact List.mem_cons_self _ _)
    exact ih (rcvStep s op) (rcvInv_step s op hI)
      (rcvHolds_step h v s op hI hH h₁)
      (fun hm => hmem (List.mem_cons_of_mem _ hm))

/-- C1: for every sequence of acquire/release operations on a slot store,
a handle returned by `acquire` is fresh (does not alias any live handle),
stays occupied with exactly the acquired value — so `get` returns a pointer
to that value — until its matching `release`, the set of live handles never
contains duplicates, and any further `acquire` performed while the handle is
still live returns a different index. -/
theorem C1_acquire_valid_until_release {V : Type}
    (ops₁ : List (RcvOp V)) (v : V) (ops₂ : List (RcvOp V))
    (hrel : RcvOp.rel (rcvAcquire v (rcvExec rcvEmpty ops₁)).fst ∉ ops₂) :
    let s := rcvExec rcvEmpty ops₁
    let a := rcvAcquire v s
    let t := rcvExec a.snd ops₂
    a.fst ∉ s.current ∧ s.current.Nodup ∧
      a.fst ∈ t.current ∧ rcvGet t a.fst = some v ∧ t.current.Nodup ∧
      ∀ w : V, (rcvAcquire w t).fst ≠ a.fst := by
  intro s a t
  have hIs : RcvInv s := rcvInv_exec ops₁ rcvEmpty rcvInv_empty
  have hacq := rcvInv_acquire v s hIs
  have hIt : RcvInv t := rcvInv_exec ops₂ a.snd hacq.1
  have hHolds : rcvHolds a.fst v t :=
    rcvHolds_exec a.fst v ops₂ a.snd hacq.1 (rcvHolds_acquire v s hIs) hrel
  refine ⟨hacq.2.2, hIs.1.nodup, hHolds.1, hHolds.2, hIt.1.nodup, ?_⟩
  intro w he
  have hfst : (rcvAcquire w t).fst = t.next := (rcvInv_acquire w t hIt).2.1
  rw [hfst] at he
  exact hIt.2.2.1 (he ▸ hHolds.1)

/-- C2: an `acquire` on any reachable slot-store state returns the
lowest-numbered free index (it is free, and every lower index is occupied);
in the concrete scenario, `acquire(10)`, `acquire(20)`, `acquire(30)` on an
empty store yield three distinct handles, after releasing the second handle
`acquire(99)` reuses its index, and reading the occupied cells in index
order yields the values 10, 99, 30. -/
theorem C2_acquire_lowest_and_scenario {V : Type} (ops : List (RcvOp V)) (v : V) :
    ((rcvAcquire v (rcvExec rcvEmpty ops)).fst ∉ (rcvExec rcvEmpty ops).current ∧
      ∀ i < (rcvAcquire v (rcvExec rcvEmpty ops)).fst,
        i ∈ (rcvExec rcvEmpty ops).current) ∧
    (let t₁ := rcvAcquire 10 (rcvEmpty (V := Nat))
     let t₂ := rcvAcquire 20 t₁.snd
     let t₃ := rcvAcquire 30 t₂.snd
     let t₄ := rcvRelease t₂.fst t₃.snd
     let t₅ := rcvAcquire 99 t₄
     t₁.fst ≠ t₂.fst ∧ t₁.fst ≠ t₃.fst ∧ t₂.fst ≠ t₃.fst ∧
       t₅.fst = t₂.fst ∧
       (rcvActiveHandles t₅.snd).map (rcvGet t₅.snd) = [some 10, some 99, some 30]) := by
  constructor
  · have hIs : RcvInv (rcvExec rcvEmpty ops) := rcvInv_exec ops rcvEmpty rcvInv_empty
    have hacq := rcvInv_acquire v (rcvExec rcvEmpty ops) hIs
    refine ⟨hacq.2.2, ?_⟩
    intro i hi
    rw [hacq.2.1] at hi
    exact hIs.2.2.2 i hi
  · decide

/-! ### Signal lemmas -/
theorem sigDisconnect_pos (h : Nat) (s : SigState) (hv : 0 < s.visiting) :
    sigDisconnect h s =
      { s with deferredDisconnect := setInsert h s.deferredDisconnect } := by
  rw [sigDisconnect, if_pos hv]

theorem sigGetCb_congr {s t : SigState} (h : Nat) (he : s.cns = t.cns) :
    sigGetCb s h = sigGetCb t h := by
  rw [sigGetCb, sigGetCb, rcvGet, rcvGet, he]

theorem runCb_pos (c : Cb) :
    ∀ (s : SigState), 0 < s.visiting →
      (runCb c s).cns = s.cns ∧ (runCb c s).visiting = s.visiting := by
  induction c with
  | nil => intro s _; exact ⟨rfl, rfl⟩
  | cons h t ih =>
    intro s hv
    have he : runCb (h :: t) s = runCb t (sigDisconnect h s) := rfl
    rw [he, sigDisconnect_pos h s hv]
    exact ih _ hv

theorem bcastLoop_state (hs : List Nat) :
    ∀ (s : SigState), 0 < s.visiting →
      (bcastLoop hs s).snd.cns = s.cns ∧ (bcastLoop hs s).snd.visiting = s.visiting := by
  induction hs with
  | nil => intro s _; exact ⟨rfl, rfl⟩
  | cons h t ih =>
    intro s hv
    by_cases hc : h ∈ s.deferredDisconnect
    · simp only [bcastLoop, if_pos hc]
      exact ih s hv
    · simp only [bcastLoop, if_neg hc]
      obtain ⟨h₁, h₂⟩ := runCb_pos (sigGetCb s h) s hv
      obtain ⟨h₃, h₄⟩ := ih (runCb (sigGetCb s h) s) (by omega)
      exact ⟨h₃.trans h₁, h₄.trans h₂⟩

theorem bcastLoop_invoked_cb (hs : List Nat) :
    ∀ (s : SigState), 0 < s.visiting →
      ∀ q ∈ (bcastLoop hs s).fst, q.snd = sigGetCb s q.fst := by
  induction hs with
  | nil => intro s _ q hq; simp [bcastLoop] at hq
  | cons h t ih =>
    intro s hv q hq
    by_cases hc : h ∈ s.deferredDisconnect
    · simp only [bcastLoop, if_pos hc] at hq
      exact ih s hv q hq
    · simp only [bcastLoop, if_neg hc, List.mem_cons] at hq
      rcases hq with hq | hq
      · rw [hq]
      · obtain ⟨h₁, h₂⟩ := runCb_pos (sigGetCb s h) s hv
        have := ih (runCb (sigGetCb s h) s) (by omega) q hq
        rw [this]
        exact sigGetCb_congr q.fst h₁

theorem bcastLoop_sublist (hs : List Nat) :
    ∀ (s : SigState), ((bcastLoop hs s).fst.map Prod.fst).Sublist hs := by
  induction hs with
  | nil => intro s; simp [bcastLoop]
  | cons h t ih =>
    intro s
    by_cases hc : h ∈ s.deferredDisconnect
    · simp only [bcastLoop, if_pos hc]
      exact (ih s).cons h
    · simp only [bcastLoop, if_neg hc, List.map_cons]
      exact (ih (runCb (sigGetCb s h) s)).cons₂ h

theorem doDeferredDisconnections_spec (s : SigState) :
    doDeferredDisconnections s =
      { s with
        cns := s.deferredDisconnect.foldl (fun r h => rcvRelease h r) s.cns
        deferredDisconnect := [] } := by
  obtain ⟨cns, vis, defr⟩ := s
  cases defr with
  | nil => simp [doDeferredDisconnections, doDeferredLoop]
  | cons a t =>
    simp [doDeferredDisconnections, doDeferredLoop, flushDeferred]

theorem mem_foldl_release {V : Type} :
    ∀ (L : List Nat) (c : Rcv V) (i : Nat),
      i ∈ (L.foldl (fun r h => rcvRelease h r) c).current ↔ i ∈ c.current ∧ i ∉ L := by
  intro L
  induction L with
  | nil => intro c i; simp
  | cons a t ih =>
    intro c i
    simp only [List.foldl_cons]
    rw [ih]
    have : (rcvRelease a c).current = sortedErase c.current a := rfl
    rw [this, mem_sortedErase]
    simp only [List.mem_cons]
    constructor
    · rintro ⟨⟨h₁, h₂⟩, h₃⟩
      exact ⟨h₁, by tauto⟩
    · rintro ⟨h₁, h₂⟩
      exact ⟨⟨h₁, by tauto⟩, by tauto⟩

theorem getD_foldl_release {V : Type} :
    ∀ (L : List Nat) (c : Rcv V) (i : Nat), i ∉ L →
      ((L.foldl (fun r h => rcvRelease h r) c).buffer).getD i none =
        c.buffer.getD i none := by
  intro L
  induction L with
  | nil => intro c i _; rfl
  | cons a t ih =>
    intro c i hi
    simp only [List.mem_cons, not_or] at hi
    simp only [List.foldl_cons]
    rw [ih _ i hi.2]
    have : (rcvRelease a c).buffer = c.buffer.set a none := rfl
    rw [this, listGetD_set_ne none _ _ _ _ (fun e => hi.1 e.symm)]

/-- C3 counterexample: two live connections (handles 0 and 1) at the start
of a visit; the callback of handle 0 releases handle 1 during the visit,
and handle 1 — although live when the pass began — is then not visited,
while in the identical signal without that release both entries are
visited.  So a release during a visit does change which entries are
visited in that pass. -/
theorem C3_counterexample :
    rcvActiveHandles c3StateRel.cns = rcvActiveHandles c3StateNoop.cns ∧
    (sigBroadcast c3StateNoop).fst.map Prod.fst = [0, 1] ∧
    (sigBroadcast c3StateRel).fst.map Prod.fst = [0] := by
  decide

/-- C3 (amended): the slot store itself has no visit mechanism — visiting
lives in the signal layer, whose `disconnect` inherits `release`.  A
release requested while a visit is in progress is deferred: the connection
store is left untouched for the rest of the (possibly nested) visit, so the
handle stays occupied for `get` and cannot be reused by `acquire`; when the
outermost visit exits, exactly the deferred releases are applied and the
deferred set is emptied.  However, an entry whose release was requested
earlier in the pass is skipped (not invoked) for the remainder of that
pass. -/
theorem C3_deferred_release_amended :
    (∀ (s : SigState) (h : Nat), 0 < s.visiting →
      sigDisconnect h s =
        { s with deferredDisconnect := setInsert h s.deferredDisconnect }) ∧
    (∀ (s : SigState) (hs : List Nat), 0 < s.visiting →
      (bcastLoop hs s).snd.cns = s.cns) ∧
    (∀ s : SigState, 0 < s.visiting → (sigBroadcast s).snd.cns = s.cns) ∧
    (∀ s : SigState, s.visiting = 0 →
      (sigBroadcast s).snd.deferredDisconnect = [] ∧
      ∀ i : Nat, i ∈ (sigBroadcast s).snd.cns.current ↔
        i ∈ s.cns.current ∧
          i ∉ (bcastLoop s.cns.current
                { s with visiting := s.visiting + 1 }).snd.deferredDisconnect) := by
  refine ⟨fun s h hv => sigDisconnect_pos h s hv,
    fun s hs hv => (bcastLoop_state hs s hv).1, ?_, ?_⟩
  · intro s hv
    have h₀ : (0 : Nat) < ({ s with visiting := s.visiting + 1 } : SigState).visiting := by
      simp
    obtain ⟨h₁, h₂⟩ := bcastLoop_state s.cns.current { s with visiting := s.visiting + 1 } h₀
    simp only [sigBroadcast]
    have hv' : 0 < (bcastLoop s.cns.current
        { s with visiting := s.visiting + 1 }).snd.visiting - 1 := by
      rw [h₂]; simpa using hv
    rw [if_pos (Or.inl hv')]
    exact h₁
  · intro s hv
    have h₀ : (0 : Nat) < ({ s with visiting := s.visiting + 1 } : SigState).visiting := by
      simp
    obtain ⟨h₁, h₂⟩ := bcastLoop_state s.cns.current { s with visiting := s.visiting + 1 } h₀
    simp only [sigBroadcast]
    have hv' : (bcastLoop s.cns.current
        { s with visiting := s.visiting + 1 }).snd.visiting - 1 = 0 := by
      rw [h₂]; simp [hv]
    by_cases hd : (bcastLoop s.cns.current
        { s with visiting := s.visiting + 1 }).snd.deferredDisconnect = []
    · rw [if_pos (Or.inr hd)]
      refine ⟨hd, ?_⟩
      intro i
      rw [h₁, hd]
      simp
    · rw [if_neg (by simp [hv', hd])]
      rw [doDeferredDisconnections_spec]
      refine ⟨rfl, ?_⟩
      intro i
      rw [mem_foldl_release, h₁]

/-- C4 counterexample: on a signal where the callback at handle 0 releases
handle 1 mid-broadcast, the source broadcast (which reads each callback in
place and skips handles whose disconnect was requested earlier in the same
pass) invokes only handle 0, whereas the broadcast described by the spec
(copy every callback into a local list first, then invoke the local copies)
invokes both.  The code therefore does not invoke from local copies. -/
theorem C4_counterexample :
    (sigBroadcast c4State).fst ≠ (sigBroadcastCopyFirst c4State).fst ∧
    (sigBroadcastCopyFirst c4State).fst.map Prod.fst = [0, 1] ∧
    (sigBroadcast c4State).fst.map Prod.fst = [0] := by
  decide

/-- C4 (amended): during a broadcast only the list of live handles is
snapshotted; each callback is invoked in place from its slot, not from a
local copy.  This is nevertheless safe: disconnects during the pass are
deferred, so the slot of every invoked handle still holds exactly the
callback value it held when the pass began, and each handle from the
snapshot is invoked at most once.  (The protective copy of the connection
store, `save_cns`, is made only after the loop, before the deferred
disconnections are applied.) -/
theorem C4_broadcast_in_place_amended (s : SigState) :
    (∀ q ∈ (sigBroadcast s).fst, q.snd = sigGetCb s q.fst) ∧
    ((sigBroadcast s).fst.map Prod.fst).Sublist s.cns.current := by
  have h₀ : (0 : Nat) < ({ s with visiting := s.visiting + 1 } : SigState).visiting := by
    simp
  have hfst : (sigBroadcast s).fst =
      (bcastLoop s.cns.current { s with visiting := s.visiting + 1 }).fst := by
    simp only [sigBroadcast]
    split
    · rfl
    · rfl
  constructor
  · intro q hq
    rw [hfst] at hq
    have := bcastLoop_invoked_cb s.cns.current { s with visiting := s.visiting + 1 } h₀ q hq
    rw [this]
    exact sigGetCb_congr q.fst rfl
  · rw [hfst]
    exact bcastLoop_sublist s.cns.current _

theorem runCb_nil (s : SigState) : runCb [] s = s := rfl

theorem bcastLoop_append (xs ys : List Nat) :
    ∀ (s : SigState), bcastLoop (xs ++ ys) s =
      ((bcastLoop xs s).fst ++ (bcastLoop ys (bcastLoop xs s).snd).fst,
        (bcastLoop ys (bcastLoop xs s).snd).snd) := by
  induction xs with
  | nil => intro s; simp [bcastLoop]
  | cons h t ih =>
    intro s
    by_cases hc : h ∈ s.deferredDisconnect
    · simp only [List.cons_append, bcastLoop, if_pos hc]
      exact ih s
    · simp only [List.cons_append, bcastLoop, if_neg hc, List.append_eq]
      rw [ih (runCb (sigGetCb s h) s)]

theorem bcastLoop_noop :
    ∀ (hs : List Nat) (s : SigState),
      (∀ h ∈ hs, sigGetCb s h = []) → (∀ h ∈ hs, h ∉ s.deferredDisconnect) →
      bcastLoop hs s = (hs.map (fun h => (h, ([] : Cb))), s) := by
  intro hs
  induction hs with
  | nil => intro s _ _; rfl
  | cons h t ih =>
    intro s hcb hnd
    have h₁ : h ∉ s.deferredDisconnect := hnd h (List.mem_cons_self h t)
    have h₂ : sigGetCb s h = [] := hcb h (List.mem_cons_self h t)
    simp only [bcastLoop, if_neg h₁, h₂, runCb_nil]
    rw [ih s (fun g hg => hcb g (List.mem_cons_of_mem h hg))
      (fun g hg => hnd g (List.mem_cons_of_mem h hg))]
    simp

theorem sigBroadcast_noop (s : SigState) (hv : s.visiting = 0)
    (hdef : s.deferredDisconnect = [])
    (hcb : ∀ h ∈ s.cns.current, sigGetCb s h = []) :
    sigBroadcast s = (s.cns.current.map (fun h => (h, ([] : Cb))), s) := by
  have hloop : bcastLoop s.cns.current { s with visiting := s.visiting + 1 } =
      (s.cns.current.map (fun h => (h, ([] : Cb))),
        { s with visiting := s.visiting + 1 }) := by
    apply bcastLoop_noop
    · intro h hm
      rw [← hcb h hm]
      exact sigGetCb_congr h rfl
    · intro h _
      show h ∉ s.deferredDisconnect
      rw [hdef]
      exact List.not_mem_nil h
  simp only [sigBroadcast, hloop]
  have hcond : (0 <
      (({ s with visiting := s.visiting + 1 } : SigState)).visiting - 1) ∨
      (({ s with visiting := s.visiting + 1 } : SigState)).deferredDisconnect = [] :=
    Or.inr hdef
  rw [if_pos hcond]
  refine Prod.ext rfl ?_
  show ({ s with visiting := s.visiting + 1 - 1 } : SigState) = s
  have : s.visiting + 1 - 1 = s.visiting := by omega
  rw [this]

theorem sortedErase_split (l₁ l₂ : List Nat) (hd : Nat)
    (h₁ : hd ∉ l₁) (h₂ : hd ∉ l₂) :
    sortedErase (l₁ ++ hd :: l₂) hd = l₁ ++ l₂ := by
  have e₁ : l₁.filter (fun x => decide (x ≠ hd)) = l₁ := by
    apply List.filter_eq_self.mpr
    intro a ha
    simp only [decide_eq_true_eq]
    exact fun e => h₁ (e ▸ ha)
  have e₂ : l₂.filter (fun x => decide (x ≠ hd)) = l₂ := by
    apply List.filter_eq_self.mpr
    intro a ha
    simp only [decide_eq_true_eq]
    exact fun e => h₂ (e ▸ ha)
  simp only [sortedErase, List.filter_append, List.filter_cons, decide_eq_true_eq]
  rw [e₁, e₂]
  simp

theorem sigBroadcast_self_disconnect (cns : Rcv CnRecord) (hd : Nat)
    (l₁ l₂ : List Nat) (hsplit : cns.current = l₁ ++ hd :: l₂)
    (hd₁ : hd ∉ l₁) (hd₂ : hd ∉ l₂)
    (hcb : sigGetCb ⟨cns, 0, []⟩ hd = [hd])
    (hothers : ∀ h ∈ cns.current, h ≠ hd → sigGetCb ⟨cns, 0, []⟩ h = []) :
    sigBroadcast ⟨cns, 0, []⟩ =
      (l₁.map (fun h => (h, ([] : Cb))) ++
        (hd, [hd]) :: l₂.map (fun h => (h, ([] : Cb))),
        ⟨rcvRelease hd cns, 0, []⟩) := by
  have hA : bcastLoop l₁ (⟨cns, 1, []⟩ : SigState) =
      (l₁.map (fun h => (h, ([] : Cb))), ⟨cns, 1, []⟩) := by
    apply bcastLoop_noop
    · intro h hm
      have hne : h ≠ hd := fun e => hd₁ (e ▸ hm)
      have hmm : h ∈ cns.current := by
        rw [hsplit]; exact List.mem_append_left _ hm
      rw [← hothers h hmm hne]
      exact sigGetCb_congr h rfl
    · intro h _
      exact List.not_mem_nil h
  have hC : bcastLoop l₂ (⟨cns, 1, [hd]⟩ : SigState) =
      (l₂.map (fun h => (h, ([] : Cb))), ⟨cns, 1, [hd]⟩) := by
    apply bcastLoop_noop
    · intro h hm
      have hne : h ≠ hd := fun e => hd₂ (e ▸ hm)
      have hmm : h ∈ cns.current := by
        rw [hsplit]
        exact List.mem_append_right _ (List.mem_cons_of_mem hd hm)
      rw [← hothers h hmm hne]
      exact sigGetCb_congr h rfl
    · intro h hm
      have hne : h ≠ hd := fun e => hd₂ (e ▸ hm)
      simp [hne]
  have hB : bcastLoop (hd :: l₂) (⟨cns, 1, []⟩ : SigState) =
      ((hd, [hd]) :: l₂.map (fun h => (h, ([] : Cb))), ⟨cns, 1, [hd]⟩) := by
    have hcnm : hd ∉ (⟨cns, 1, []⟩ : SigState).deferredDisconnect :=
      List.not_mem_nil hd
    have hcb' : sigGetCb ⟨cns, 1, []⟩ hd = [hd] := by
      rw [← hcb]; exact sigGetCb_congr hd rfl
    have hs₁ : runCb [hd] (⟨cns, 1, []⟩ : SigState) = ⟨cns, 1, [hd]⟩ := by
      simp [runCb, sigDisconnect, setInsert]
    simp only [bcastLoop, if_neg hcnm, hcb', hs₁, hC]
  have hloop : bcastLoop cns.current (⟨cns, 1, []⟩ : SigState) =
      (l₁.map (fun h => (h, ([] : Cb))) ++
        (hd, [hd]) :: l₂.map (fun h => (h, ([] : Cb))), ⟨cns, 1, [hd]⟩) := by
    rw [hsplit, bcastLoop_append, hA, hB]
  have hzero : (⟨cns, 1, []⟩ : SigState) =
      { (⟨cns, 0, []⟩ : SigState) with
        visiting := (⟨cns, 0, []⟩ : SigState).visiting + 1 } := rfl
  simp only [sigBroadcast, ← hzero, hloop]
  have hcond : ¬ ((0 : Nat) <
      ((⟨cns, 1, [hd]⟩ : SigState)).visiting - 1 ∨
      ((⟨cns, 1, [hd]⟩ : SigState)).deferredDisconnect = []) := by
    simp [SigState.visiting, SigState.deferredDisconnect]
  rw [if_neg hcond]
  refine Prod.ext rfl ?_
  show doDeferredDisconnections ⟨cns, 1 - 1, [hd]⟩ = _
  rw [doDeferredDisconnections_spec]
  rfl

/-- C5: on a signal with `N` connected callbacks where one callback
disconnects its own connection and the others do nothing, a broadcast still
invokes exactly `N` callbacks — every connected handle exactly once, in
snapshot order — and after the pass the self-disconnected handle is gone,
so the next broadcast invokes the remaining handles and the disconnected
callback zero times. -/
theorem C5_self_disconnect_broadcast (s : SigState) (hd : Nat)
    (hv : s.visiting = 0) (hdef : s.deferredDisconnect = [])
    (hnd : s.cns.current.Nodup) (hmem : hd ∈ s.cns.current)
    (hcb : sigGetCb s hd = [hd])
    (hothers : ∀ h ∈ s.cns.current, h ≠ hd → sigGetCb s h = []) :
    (sigBroadcast s).fst.map Prod.fst = s.cns.current ∧
    (sigBroadcast s).fst.length = s.cns.current.length ∧
    hd ∉ (sigBroadcast s).snd.cns.current ∧
    (sigBroadcast (sigBroadcast s).snd).fst.map Prod.fst =
      (sigBroadcast s).snd.cns.current ∧
    hd ∉ (sigBroadcast (sigBroadcast s).snd).fst.map Prod.fst := by
  obtain ⟨l₁, l₂, hsplit⟩ := List.append_of_mem hmem
  have hs : s = ⟨s.cns, 0, []⟩ := by
    obtain ⟨c, v, d⟩ := s
    simp only at hv hdef
    rw [hv, hdef]
  have hnd' : (l₁ ++ hd :: l₂).Nodup := hsplit ▸ hnd
  have hd₁ : hd ∉ l₁ := by
    intro hin
    rcases List.nodup_append.mp hnd' with ⟨_, _, hdisj⟩
    exact hdisj hin (List.mem_cons_self hd l₂)
  have hd₂ : hd ∉ l₂ := by
    rcases List.nodup_append.mp hnd' with ⟨_, hcons, _⟩
    exact (List.nodup_cons.mp hcons).1
  have hrun := sigBroadcast_self_disconnect s.cns hd l₁ l₂ hsplit hd₁ hd₂
    (by rw [← hs]; exact hcb) (by rw [← hs]; exact hothers)
  rw [hs, hrun]
  have hcur : (rcvRelease hd s.cns).current = l₁ ++ l₂ := by
    show sortedErase s.cns.current hd = l₁ ++ l₂
    rw [hsplit]
    exact sortedErase_split l₁ l₂ hd hd₁ hd₂
  have hfst : ((l₁.map (fun h => (h, ([] : Cb))) ++
      (hd, [hd]) :: l₂.map (fun h => (h, ([] : Cb)))).map Prod.fst) =
      l₁ ++ hd :: l₂ := by
    simp [Function.comp_def]
  have hsecond : sigBroadcast (⟨rcvRelease hd s.cns, 0, []⟩ : SigState) =
      ((l₁ ++ l₂).map (fun h => (h, ([] : Cb))),
        ⟨rcvRelease hd s.cns, 0, []⟩) := by
    have := sigBroadcast_noop ⟨rcvRelease hd s.cns, 0, []⟩ rfl rfl ?_
    · rw [this]
      show ((rcvRelease hd s.cns).current.map _, _) = _
      rw [hcur]
    · intro h hm
      show sigGetCb _ h = []
      have hm' : h ∈ l₁ ++ l₂ := by
        have : (⟨rcvRelease hd s.cns, 0, []⟩ : SigState).cns.current =
            l₁ ++ l₂ := hcur
        rw [← this]
        exact hm
      have hne : h ≠ hd := by
        intro e
        rcases List.mem_append.mp hm' with hin | hin
        · exact hd₁ (e ▸ hin)
        · exact hd₂ (e ▸ hin)
      have hmm : h ∈ s.cns.current := by
        rw [hsplit]
        rcases List.mem_append.mp hm' with hin | hin
        · exact List.mem_append_left _ hin
        · exact List.mem_append_right _ (List.mem_cons_of_mem hd hin)
      have horig : sigGetCb s h = [] := hothers h hmm hne
      show (match rcvGet (rcvRelease hd s.cns) h with
        | some r => r.cb | none => []) = []
      have hbuf : rcvGet (rcvRelease hd s.cns) h = rcvGet s.cns h := by
        show ((rcvRelease hd s.cns).buffer).getD h none = (s.cns.buffer).getD h none
        rw [rcvRelease_buffer, listGetD_set_ne none _ _ _ _ (fun e => hne e.symm)]
      rw [hbuf]
      rw [hs] at horig
      exact horig
  refine ⟨hfst.trans hsplit.symm, ?_, ?_, ?_, ?_⟩
  · show (l₁.map (fun h => (h, ([] : Cb))) ++
      (hd, [hd]) :: l₂.map (fun h => (h, ([] : Cb)))).length = s.cns.current.length
    rw [hsplit]
    simp
  · show hd ∉ (rcvRelease hd s.cns).current
    rw [hcur]
    intro hin
    rcases List.mem_append.mp hin with hin | hin
    · exact hd₁ hin
    · exact hd₂ hin
  · show (sigBroadcast (⟨rcvRelease hd s.cns, 0, []⟩ : SigState)).fst.map Prod.fst =
        (⟨rcvRelease hd s.cns, 0, []⟩ : SigState).cns.current
    rw [hsecond]
    show ((l₁ ++ l₂).map _).map Prod.fst = (rcvRelease hd s.cns).current
    rw [hcur]
    simp [Function.comp_def]
  · rw [hsecond]
    show hd ∉ ((l₁ ++ l₂).map (fun h => (h, ([] : Cb)))).map Prod.fst
    have hmm : ((l₁ ++ l₂).map (fun h => (h, ([] : Cb)))).map Prod.fst = l₁ ++ l₂ := by
      simp [Function.comp_def]
    rw [hmm]
    intro hin
    rcases List.mem_append.mp hin with hin | hin
    · exact hd₁ hin
    · exact hd₂ hin

theorem mem_setInsert (h a : Nat) (l : List Nat) :
    a ∈ setInsert h l ↔ a ∈ l ∨ a = h := by
  by_cases hc : h ∈ l
  · rw [setInsert, if_pos hc]
    constructor
    · exact Or.inl
    · rintro (ha | ha)
      · exact ha
      · exact ha ▸ hc
  · rw [setInsert, if_neg hc]
    simp [List.mem_append]

theorem mem_foldl_setInsert :
    ∀ (L acc : List Nat) (i : Nat),
      i ∈ L.foldl (fun d h => setInsert h d) acc ↔ i ∈ acc ∨ i ∈ L := by
  intro L
  induction L with
  | nil => intro acc i; simp
  | cons a t ih =>
    intro acc i
    simp only [List.foldl_cons]
    rw [ih, mem_setInsert]
    simp only [List.mem_cons]
    tauto

theorem listGetD_set_false (j : Nat) :
    ∀ (bs : List Bool) (i : Nat), bs.getD j false = false →
      (bs.set i false).getD j false = false := by
  intro bs
  induction bs generalizing j with
  | nil => intro i _; simp [List.set]
  | cons b tl ih =>
    intro i h
    cases i with
    | zero =>
      cases j with
      | zero => simp [List.set, List.getD]
      | succ m =>
        simp only [List.set, List.getD_cons_succ]
        simpa using h
    | succ n =>
      cases j with
      | zero => simpa [List.set, List.getD] using h
      | succ m =>
        simp only [List.set, List.getD_cons_succ] at h ⊢
        exact ih m n h

theorem foldl_bodiesNull_false (c : Rcv CnRecord) :
    ∀ (L : List Nat) (bs : List Bool) (j : Nat),
      bs.getD j false = false →
      (L.foldl (fun bs h =>
        match rcvGet c h with
        | some r => bs.set r.body false
        | none => bs) bs).getD j false = false := by
  intro L
  induction L with
  | nil => intro bs j h; exact h
  | cons a tl ih =>
    intro bs j h
    simp only [List.foldl_cons]
    cases hr : rcvGet c a with
    | none => simp only [hr]; exact ih bs j h
    | some r => simp only [hr]; exact ih _ j (listGetD_set_false j bs r.body h)

theorem foldl_bodiesNull_hit (c : Rcv CnRecord) :
    ∀ (L : List Nat) (bs : List Bool) (g j : Nat) (r : CnRecord),
      g ∈ L → rcvGet c g = some r → r.body = j → j < bs.length →
      (L.foldl (fun bs h =>
        match rcvGet c h with
        | some r => bs.set r.body false
        | none => bs) bs).getD j false = false := by
  intro L
  induction L with
  | nil => intro bs g j r hg; exact absurd hg (List.not_mem_nil g)
  | cons a tl ih =>
    intro bs g j r hg hget hbody hlen
    rcases List.mem_cons.mp hg with he | hm
    · subst he
      simp only [List.foldl_cons, hget]
      apply foldl_bodiesNull_false
      rw [← hbody]
      exact listGetD_set_self false bs r.body false (hbody ▸ hlen)
    · simp only [List.foldl_cons]
      cases hr : rcvGet c a with
      | none => exact ih bs g j r hm hget hbody hlen
      | some q =>
        exact ih _ g j r hm hget hbody (by simpa using hlen)

/-- C6: destroying a signal nulls the back-reference body of every
outstanding token (a token already unlinked stays unlinked), so destroying
a token afterwards is a no-op on the whole world and never touches the
destroyed signal; moreover the destructor flushes every deferred
disconnect, leaving an empty deferred set and an empty connection store.
The hypothesis is the token-linking invariant the code maintains: a linked
token's handle is occupied and its record points back at the token's
body. -/
theorem C6_destroy_signal_token_noop (w : SigWorld) (t : CnToken)
    (hlink : w.bodies.getD t.bodyIdx false = true →
      t.handle ∈ w.sig.cns.current ∧
      (∃ r : CnRecord, rcvGet w.sig.cns t.handle = some r ∧ r.body = t.bodyIdx) ∧
      t.bodyIdx < w.bodies.length) :
    (destroySignal w).bodies.getD t.bodyIdx false = false ∧
    destroyCn t (destroySignal w) = destroySignal w ∧
    (destroySignal w).sig.deferredDisconnect = [] ∧
    (destroySignal w).sig.cns.current = [] := by
  have hbodies : (destroySignal w).bodies =
      w.sig.cns.current.foldl (fun bs h =>
        match rcvGet w.sig.cns h with
        | some r => bs.set r.body false
        | none => bs) w.bodies := rfl
  have hb : (destroySignal w).bodies.getD t.bodyIdx false = false := by
    rw [hbodies]
    cases hcase : w.bodies.getD t.bodyIdx false with
    | false => exact foldl_bodiesNull_false w.sig.cns _ w.bodies t.bodyIdx hcase
    | true =>
      obtain ⟨hmem, ⟨r, hr, hrb⟩, hlen⟩ := hlink hcase
      exact foldl_bodiesNull_hit w.sig.cns _ w.bodies t.handle t.bodyIdx r hmem hr hrb hlen
  have hsig : (destroySignal w).sig =
      doDeferredDisconnections
        { (doDeferredDisconnections w.sig) with
          deferredDisconnect := w.sig.cns.current.foldl (fun d h => setInsert h d)
            (doDeferredDisconnections w.sig).deferredDisconnect } := rfl
  have hflush₁ := doDeferredDisconnections_spec w.sig
  refine ⟨hb, ?_, ?_, ?_⟩
  · rw [destroyCn, if_neg]
    rw [hb]
    simp
  · rw [hsig, doDeferredDisconnections_spec]
  · rw [hsig, doDeferredDisconnections_spec]
    apply List.eq_nil_iff_forall_not_mem.mpr
    intro i hi
    rw [mem_foldl_release] at hi
    obtain ⟨hin, hnin⟩ := hi
    apply hnin
    show i ∈ w.sig.cns.current.foldl (fun d h => setInsert h d)
      (doDeferredDisconnections w.sig).deferredDisconnect
    rw [mem_foldl_setInsert]
    right
    have hin' : i ∈ (doDeferredDisconnections w.sig).cns.current := hin
    rw [hflush₁] at hin'
    exact (mem_foldl_release w.sig.deferredDisconnect w.sig.cns i |>.mp hin').1

/-! ### Serial processor lemmas and C7 -/
theorem listGetD_replicate_self {α : Type} (x : α) :
    ∀ (n i : Nat), (List.replicate n x).getD i x = x := by
  intro n
  induction n with
  | zero => intro i; simp [List.getD]
  | succ m ih =>
    intro i
    cases i with
    | zero => simp [List.replicate, List.getD]
    | succ k =>
      simp only [List.replicate, List.getD_cons_succ]
      exact ih k

theorem listGetD_append_right {α : Type} (d : α) :
    ∀ (l₁ l₂ : List α) (i : Nat), l₁.length ≤ i →
      (l₁ ++ l₂).getD i d = l₂.getD (i - l₁.length) d := by
  intro l₁
  induction l₁ with
  | nil => intro l₂ i _; simp
  | cons x xs ih =>
    intro l₂ i h
    cases i with
    | zero => simp at h
    | succ n =>
      simp only [List.cons_append, List.getD_cons_succ, List.length_cons]
      rw [ih l₂ n (by simpa using h)]
      simp [Nat.succ_sub_succ]

theorem foldl_pureAct {V : Type} :
    ∀ (l : List V) (st : SProc V), l.foldl (fun acc v => pureAct v acc) st = st := by
  intro l
  induction l with
  | nil => intro st; rfl
  | cons a t ih => intro st; exact ih st

/-- C7 counterexample: on a fresh serial processor, pushing index 0 with
payload 1 and then index 0 with payload 2 executes exactly one item on the
next `process_all`, but with the FIRST pushed payload, not the most
recently pushed one. -/
theorem C7_counterexample :
    (serialProcessAll pureAct 2 c7State).fst = [1] ∧
    (serialProcessAll pureAct 2 c7State).fst ≠ [2] := by
  decide

/-- C7 (amended): for the serial processor, pushing a task twice with the
same index before a drain executes the associated task exactly once in the
next `process_all`, with the FIRST pushed payload (the second same-index
push is silently dropped); pushing tasks with two different indices
executes both exactly once. -/
theorem C7_coalesce_first_payload {V : Type} (v₁ v₂ : V) (i j : Nat) :
    (i = j →
      (serialProcessAll pureAct 2
        (serialPushIndexed v₂ j (serialMakePusher (sprocEmpty (V := V))).fst
          (serialPushIndexed v₁ i (serialMakePusher (sprocEmpty (V := V))).fst
            (serialMakePusher (sprocEmpty (V := V))).snd))).fst = [v₁]) ∧
    (i ≠ j →
      (serialProcessAll pureAct 2
        (serialPushIndexed v₂ j (serialMakePusher (sprocEmpty (V := V))).fst
          (serialPushIndexed v₁ i (serialMakePusher (sprocEmpty (V := V))).fst
            (serialMakePusher (sprocEmpty (V := V))).snd))).fst = [v₁, v₂]) := by
  have hmk : serialMakePusher (sprocEmpty (V := V)) =
      (0, ⟨[(0, slotEmpty)], 1, [], [], 0⟩) := rfl
  have hlk₀ : lookupSlot 0 (⟨[(0, slotEmpty)], 1, [], [], 0⟩ : SProc V) =
      some slotEmpty := rfl
  have hiv₁ : ivPushIndexed v₁ i (ivEmpty (V := V)) =
      (1, ⟨[], (List.replicate (i + 1) none).set i (some v₁), [i]⟩) := by
    simp only [ivPushIndexed, ivEmpty, List.length_nil, Nat.zero_le, if_true,
      List.nil_append, Nat.sub_zero, listGetD_replicate_self, Option.isSome_none,
      Bool.false_eq_true, if_false]
  have hpush₁ : serialPushIndexed v₁ i 0 (⟨[(0, slotEmpty)], 1, [], [], 0⟩ : SProc V) =
      ⟨[(0, ⟨false, 1, ⟨[], (List.replicate (i + 1) none).set i (some v₁), [i]⟩,
        ivEmpty⟩)], 1, [0], [], 1⟩ := by
    simp only [serialPushIndexed, hlk₀]
    simp only [slotPushIndexed, slotEmpty, Bool.false_eq_true, if_false, hiv₁]
    simp only [slotIsEmpty, setSlot]
    norm_num
  have hlen : ((List.replicate (i + 1) (none : Option V)).set i (some v₁)).length
      = i + 1 := by simp
  have hgetSelf : ((List.replicate (i + 1) (none : Option V)).set i (some v₁)).getD
      i none = some v₁ :=
    listGetD_set_self none (List.replicate (i + 1) none) i (some v₁) (by simp)
  have hlkA : lookupSlot 0
      (⟨[(0, ⟨false, 1, ⟨[], (List.replicate (i + 1) none).set i (some v₁), [i]⟩,
        ivEmpty⟩)], 1, [0], [], 1⟩ : SProc V) =
      some ⟨false, 1, ⟨[], (List.replicate (i + 1) none).set i (some v₁), [i]⟩,
        ivEmpty⟩ := rfl
  constructor
  · intro hij
    subst hij
    have hnle : ¬ ((List.replicate (i + 1) (none : Option V)).set i
        (some v₁)).length ≤ i := by
      rw [hlen]; omega
    have hocc : ivPushIndexed v₂ i
        (⟨[], (List.replicate (i + 1) none).set i (some v₁), [i]⟩ : ItemVec V) =
        (0, ⟨[], (List.replicate (i + 1) none).set i (some v₁), [i]⟩) := by
      simp only [ivPushIndexed, if_neg hnle, hgetSelf]
      simp
    have hpush₂ : serialPushIndexed v₂ i 0
        (⟨[(0, ⟨false, 1, ⟨[], (List.replicate (i + 1) none).set i (some v₁), [i]⟩,
          ivEmpty⟩)], 1, [0], [], 1⟩ : SProc V) =
        ⟨[(0, ⟨false, 1, ⟨[], (List.replicate (i + 1) none).set i (some v₁), [i]⟩,
          ivEmpty⟩)], 1, [0], [], 1⟩ := by
      simp only [serialPushIndexed, hlkA]
      simp only [slotPushIndexed, Bool.false_eq_true, if_false, hocc]
      simp only [slotIsEmpty, setSlot]
      norm_num
    rw [hmk, hpush₁, hpush₂]
    simp [serialProcessAll, serialLoop, processBusyList, slotProcessAll,
      lookupSlot, setSlot, slotIsEmpty, ivProcessList, foldl_pureAct, ivEmpty,
      List.find?, hgetSelf]
  · intro hij
    have hfresh : (((List.replicate (i + 1) (none : Option V)).set i (some v₁))).getD
        j none = none := by
      rw [listGetD_set_ne none (List.replicate (i + 1) none) i j (some v₁)
        (fun e => hij e)]
      exact listGetD_replicate_self none (i + 1) j
    by_cases hle : i + 1 ≤ j
    · -- the second index lies beyond the indexed buffer, which is grown
      have hle' : ((List.replicate (i + 1) (none : Option V)).set i
          (some v₁)).length ≤ j := by
        rw [hlen]; exact hle
      have hiv₂ : ivPushIndexed v₂ j
          (⟨[], (List.replicate (i + 1) none).set i (some v₁), [i]⟩ : ItemVec V) =
          (1, ⟨[], (((List.replicate (i + 1) none).set i (some v₁)) ++
            List.replicate (j + 1 - (i + 1)) none).set j (some v₂), [i, j]⟩) := by
        simp only [ivPushIndexed, if_pos hle']
        rw [listGetD_append_right none
          ((List.replicate (i + 1) none).set i (some v₁))
          (List.replicate (j + 1 - ((List.replicate (i + 1)
            (none : Option V)).set i (some v₁)).length) none) j hle']
        rw [listGetD_replicate_self]
        simp [hlen]
      have hgi : ((((List.replicate (i + 1) (none : Option V)).set i (some v₁)) ++
          List.replicate (j + 1 - (i + 1)) none).set j (some v₂)).getD i none =
          some v₁ := by
        rw [listGetD_set_ne none _ j i (some v₂) (fun e => hij e.symm)]
        rw [listGetD_append_left none
          ((List.replicate (i + 1) none).set i (some v₁))
          (List.replicate (j + 1 - (i + 1)) none) i (by rw [hlen]; omega)]
        exact hgetSelf
      have hgj : ((((List.replicate (i + 1) (none : Option V)).set i (some v₁)) ++
          List.replicate (j + 1 - (i + 1)) none).set j (some v₂)).getD j none =
          some v₂ := by
        apply listGetD_set_self
        simp only [List.length_append, List.length_replicate, hlen]
        omega
      have hpush₂ : serialPushIndexed v₂ j 0
          (⟨[(0, ⟨false, 1, ⟨[], (List.replicate (i + 1) none).set i (some v₁), [i]⟩,
            ivEmpty⟩)], 1, [0], [], 1⟩ : SProc V) =
          ⟨[(0, ⟨false, 2, ⟨[], (((List.replicate (i + 1) none).set i (some v₁)) ++
            List.replicate (j + 1 - (i + 1)) none).set j (some v₂), [i, j]⟩,
            ivEmpty⟩)], 1, [0], [], 2⟩ := by
        simp only [serialPushIndexed, hlkA]
        simp only [slotPushIndexed, Bool.false_eq_true, if_false, hiv₂]
        simp only [slotIsEmpty, setSlot]
        norm_num
      rw [hmk, hpush₁, hpush₂]
      simp only [List.getD_eq_getElem?_getD, Nat.add_sub_add_right] at hgi hgj
      simp [serialProcessAll, serialLoop, processBusyList, slotProcessAll,
        lookupSlot, setSlot, slotIsEmpty, ivProcessList, foldl_pureAct, ivEmpty,
        List.find?, hgi, hgj]
    · -- the second index lies inside the indexed buffer
      have hnle : ¬ ((List.replicate (i + 1) (none : Option V)).set i
          (some v₁)).length ≤ j := by
        rw [hlen]; exact hle
      have hiv₂ : ivPushIndexed v₂ j
          (⟨[], (List.replicate (i + 1) none).set i (some v₁), [i]⟩ : ItemVec V) =
          (1, ⟨[], (((List.replicate (i + 1) none).set i (some v₁))).set j (some v₂),
            [i, j]⟩) := by
        simp only [ivPushIndexed, if_neg hnle, hfresh]
        simp
      have hgi : (((List.replicate (i + 1) (none : Option V)).set i
          (some v₁)).set j (some v₂)).getD i none = some v₁ := by
        rw [listGetD_set_ne none _ j i (some v₂) (fun e => hij e.symm)]
        exact hgetSelf
      have hgj : (((List.replicate (i + 1) (none : Option V)).set i
          (some v₁)).set j (some v₂)).getD j none = some v₂ := by
        apply listGetD_set_self
        rw [hlen]
        omega
      have hpush₂ : serialPushIndexed v₂ j 0
          (⟨[(0, ⟨false, 1, ⟨[], (List.replicate (i + 1) none).set i (some v₁), [i]⟩,
            ivEmpty⟩)], 1, [0], [], 1⟩ : SProc V) =
          ⟨[(0, ⟨false, 2, ⟨[], (((List.replicate (i + 1) none).set i (some v₁))).set
            j (some v₂), [i, j]⟩, ivEmpty⟩)], 1, [0], [], 2⟩ := by
        simp only [serialPushIndexed, hlkA]
        simp only [slotPushIndexed, Bool.false_eq_true, if_false, hiv₂]
        simp only [slotIsEmpty, setSlot]
        norm_num
      rw [hmk, hpush₁, hpush₂]
      simp only [List.getD_eq_getElem?_getD] at hgi hgj
      simp [serialProcessAll, serialLoop, processBusyList, slotProcessAll,
        lookupSlot, setSlot, slotIsEmpty, ivProcessList, foldl_pureAct, ivEmpty,
        List.find?, hgi, hgj]
      simp only [List.filterMap_cons, hgi, hgj, List.filterMap_nil]

/-! ### C8: deferred release of serial slots -/
theorem find?_eraseSlotList {V : Type} (h : Nat) (l : List (Nat × PSlot V)) :
    (eraseSlotList h l).find? (fun q => q.fst == h) = none := by
  apply List.find?_eq_none.mpr
  intro x hx
  have hx' := List.mem_filter.mp hx
  simp only [decide_eq_true_eq] at hx'
  simp [hx'.2]

theorem lookupSlot_releaseNow_self {V : Type} (h : Nat) (st : SProc V) :
    lookupSlot h (serialReleaseNow h st) = none := by
  rw [serialReleaseNow]
  cases hc : lookupSlot h st with
  | none => exact hc
  | some sl =>
    show (((eraseSlotList h st.slots).find? (fun q => q.fst == h)).map Prod.snd) = none
    rw [find?_eraseSlotList]
    rfl

theorem lookupSlot_releaseNow_none {V : Type} (g h : Nat) (st : SProc V)
    (hn : lookupSlot h st = none) : lookupSlot h (serialReleaseNow g st) = none := by
  rw [serialReleaseNow]
  cases hc : lookupSlot g st with
  | none => exact hn
  | some sl =>
    show (((eraseSlotList g st.slots).find? (fun q => q.fst == h)).map Prod.snd) = none
    have hfind : st.slots.find? (fun q => q.fst == h) = none := by
      cases hf : st.slots.find? (fun q => q.fst == h) with
      | none => rfl
      | some q =>
        rw [lookupSlot, hf] at hn
        simp at hn
    have hnone : (eraseSlotList g st.slots).find? (fun q => q.fst == h) = none := by
      apply List.find?_eq_none.mpr
      intro x hx
      exact List.find?_eq_none.mp hfind x (List.mem_filter.mp hx).1
    rw [hnone]
    rfl

theorem lookupSlot_foldl_preserve_none {V : Type} :
    ∀ (L : List Nat) (st : SProc V) (h : Nat), lookupSlot h st = none →
      lookupSlot h (L.foldl (fun s g => serialReleaseNow g s) st) = none := by
  intro L
  induction L with
  | nil => intro st h hn; exact hn
  | cons g t ih =>
    intro st h hn
    exact ih (serialReleaseNow g st) h (lookupSlot_releaseNow_none g h st hn)

theorem lookupSlot_foldl_releaseNow {V : Type} :
    ∀ (L : List Nat) (st : SProc V) (h : Nat), h ∈ L →
      lookupSlot h (L.foldl (fun s g => serialReleaseNow g s) st) = none := by
  intro L
  induction L with
  | nil => intro st h hm; exact absurd hm (List.not_mem_nil h)
  | cons g t ih =>
    intro st h hm
    rcases List.mem_cons.mp hm with he | hm'
    · subst he
      exact lookupSlot_foldl_preserve_none t (serialReleaseNow h st) h
        (lookupSlot_releaseNow_self h st)
    · exact ih (serialReleaseNow g st) h hm'

/-- C8: a release of a slot that is mid-processing is deferred — the slot,
its items and the totals are untouched, only the deferred-release queue
grows — while a release of a slot that is not mid-processing takes effect
immediately: it drops the slot's pending items from the total and erases
the slot.  `process_all` applies every deferred release only after the
drain loop has finished and clears the queue.  In the concrete scenario, a
slot whose queue holds a command releasing its own slot followed by an
inert command still executes both items in that pass; the slot is erased
and the queue emptied only once the pass is over. -/
theorem C8_release_deferred_while_processing :
    (∀ (V : Type) (h : Nat) (st : SProc V) (sl : PSlot V),
      lookupSlot h st = some sl → sl.processing = true →
      serialRelease h st = { st with deferredRelease := st.deferredRelease ++ [h] }) ∧
    (∀ (V : Type) (h : Nat) (st : SProc V) (sl : PSlot V),
      lookupSlot h st = some sl → sl.processing = false →
      serialRelease h st = serialReleaseNow h st ∧
      lookupSlot h (serialReleaseNow h st) = none ∧
      (serialReleaseNow h st).totalItems = st.totalItems - (slotClear sl).fst) ∧
    (∀ (V : Type) (act : V → SProc V → SProc V) (fuel : Nat) (st : SProc V),
      (serialProcessAll act fuel st).snd.deferredRelease = [] ∧
      ∀ h ∈ (serialLoop act fuel st).snd.deferredRelease,
        lookupSlot h (serialProcessAll act fuel st).snd = none) ∧
    ((serialProcessAll applySCmd 2 c8State).fst =
      [SCmd.releaseSlot 0, SCmd.noop] ∧
      lookupSlot 0 c8State ≠ none ∧
      lookupSlot 0 (serialProcessAll applySCmd 2 c8State).snd = none ∧
      (serialProcessAll applySCmd 2 c8State).snd.deferredRelease = []) := by
  refine ⟨?_, ?_, ?_, by decide⟩
  · intro V h st sl hlk hproc
    rw [serialRelease, hlk]
    simp [hproc]
  · intro V h st sl hlk hproc
    refine ⟨?_, lookupSlot_releaseNow_self h st, ?_⟩
    · rw [serialRelease, hlk]
      simp [hproc]
    · rw [serialReleaseNow, hlk]
  · intro V act fuel st
    refine ⟨rfl, ?_⟩
    intro h hm
    show lookupSlot h
      (((serialLoop act fuel st).snd.deferredRelease).foldl
        (fun s g => serialReleaseNow g s)
        { (serialLoop act fuel st).snd with busySlots := [] }) = none
    exact lookupSlot_foldl_releaseNow _ _ h hm

theorem lfqPush_foldl {V : Type} :
    ∀ (items l : List V) (sz : Nat),
      items.foldl (fun q v => lfqPush v q) ⟨sz, l, [], false⟩ =
        ⟨sz, l ++ items, [], false⟩ := by
  intro items
  induction items with
  | nil => intro l sz; simp
  | cons a t ih =>
    intro l sz
    simp only [List.foldl_cons]
    have hstep : lfqPush a (⟨sz, l, [], false⟩ : LFQueue V) =
        ⟨sz, l ++ [a], [], false⟩ := rfl
    rw [hstep, ih]
    simp

theorem lfBuild_eq {V : Type} (c : Nat × List V) :
    lfBuild (V := V) c = ⟨c.fst, c.snd, [], false⟩ := by
  rw [lfBuild, lfqNew, lfqPush_foldl]
  simp

theorem lfqProcessAll_fresh {V : Type} (sz : Nat) (items : List V) :
    (lfqProcessAll (⟨sz, items, [], false⟩ : LFQueue V)).fst = items ∧
    ((lfqProcessAll (⟨sz, items, [], false⟩ : LFQueue V)).snd.q0 = [] ∧
      (lfqProcessAll (⟨sz, items, [], false⟩ : LFQueue V)).snd.q1 = []) := by
  by_cases hc : (lfqBuf false (⟨sz, items, [], false⟩ : LFQueue V)).length > sz / 2
  · simp only [lfqProcessAll, if_pos hc]
    simp [lfqBuf, lfqSetBuf]
  · simp only [lfqProcessAll, if_neg hc]
    simp [lfqBuf, lfqSetBuf]

theorem lfqProcessAll_empty {V : Type} (sz : Nat) (b : Bool) :
    lfqProcessAll (⟨sz, [], [], b⟩ : LFQueue V) = ([], ⟨sz, [], [], b⟩) := by
  have hc : ¬ (lfqBuf b (⟨sz, [], [], b⟩ : LFQueue V)).length > sz / 2 := by
    cases b <;> simp [lfqBuf]
  rw [lfqProcessAll]
  cases b
  · rw [if_neg hc]
    rfl
  · rw [if_neg hc]
    rfl

theorem lfqProcessAll_fst_of_empty {V : Type} (q : LFQueue V)
    (h0 : q.q0 = []) (h1 : q.q1 = []) : (lfqProcessAll q).fst = [] := by
  obtain ⟨sz, q0, q1, b⟩ := q
  simp only at h0 h1
  subst h0
  subst h1
  rw [lfqProcessAll_empty]

theorem lfProcessAll_no_deferred {V : Type} (ps : List (LFQueue V)) (b : Bool) :
    lfProcessAll (⟨ps, [], [], b⟩ : LFProc V) =
      (((ps.map lfqProcessAll).map Prod.fst).join,
        ⟨(ps.map lfqProcessAll).map Prod.snd, [], [], false⟩) := by
  simp [lfProcessAll]

/-- C9: on a lock-free processor holding any number of pushers, each a
fresh queue of arbitrary initial capacity with its items pushed in order
(and no pusher released), one `process_all` executes exactly the pushed
items — every item exactly once, pusher by pusher in order — and further
calls execute nothing; and whenever a queue's active buffer occupancy
exceeds half its size target, `process_all` doubles the target, flips the
active index to the freshly allocated buffer, and the executed items of
that pass are exactly the old active buffer drained in full (the fresh
active buffer contributes nothing in this single-consumer model). -/
theorem C9_lock_free_exactly_once {V : Type} (cfgs : List (Nat × List V)) :
    ((lfProcessAll (⟨cfgs.map lfBuild, [], [], false⟩ : LFProc V)).fst =
      (cfgs.map Prod.snd).join ∧
    (lfProcessAll
      (lfProcessAll (⟨cfgs.map lfBuild, [], [], false⟩ : LFProc V)).snd).fst = []) ∧
    (∀ q : LFQueue V, (lfqBuf q.pushIndex q).length > q.size / 2 →
      (lfqProcessAll q).snd.size = q.size * 2 ∧
      (lfqProcessAll q).snd.pushIndex = !q.pushIndex ∧
      (lfqProcessAll q).fst = lfqBuf q.pushIndex q) := by
  have hsndEmpty : ∀ c : Nat × List V,
      (lfqProcessAll (lfBuild (V := V) c)).snd.q0 = [] ∧
      (lfqProcessAll (lfBuild (V := V) c)).snd.q1 = [] := by
    intro c
    rw [lfBuild_eq]
    exact (lfqProcessAll_fresh c.fst c.snd).2
  constructor
  · constructor
    · rw [lfProcessAll_no_deferred]
      show (((cfgs.map lfBuild).map lfqProcessAll).map Prod.fst).join = _
      simp only [List.map_map]
      congr 1
      apply List.map_congr_left
      intro c _
      show (lfqProcessAll (lfBuild c)).fst = c.snd
      rw [lfBuild_eq]
      exact (lfqProcessAll_fresh c.fst c.snd).1
    · rw [lfProcessAll_no_deferred, lfProcessAll_no_deferred]
      apply List.join_eq_nil_iff.mpr
      intro l hl
      rw [List.mem_map] at hl
      obtain ⟨pq, hpq, hfst⟩ := hl
      rw [List.mem_map] at hpq
      obtain ⟨q, hq, hq'⟩ := hpq
      rw [List.mem_map] at hq
      obtain ⟨pq₀, hpq₀, hq₀⟩ := hq
      rw [List.mem_map] at hpq₀
      obtain ⟨y, hy, hy'⟩ := hpq₀
      rw [List.mem_map] at hy
      obtain ⟨c, _, hc⟩ := hy
      rw [← hfst, ← hq']
      apply lfqProcessAll_fst_of_empty
      · rw [← hq₀, ← hy', ← hc]
        exact (hsndEmpty c).1
      · rw [← hq₀, ← hy', ← hc]
        exact (hsndEmpty c).2
  · intro q hq
    simp only [lfqProcessAll, if_pos hq]
    cases hb : q.pushIndex
    · simp [lfqBuf, lfqSetBuf, hb]
    · simp [lfqBuf, lfqSetBuf, hb]

/-- C10: for every pusher discipline (lock-free, locking, serial), a pusher
whose processor back-pointer is null — which is the case after `release`,
after being moved from, and for a default-constructed pusher — has a
`push` that leaves the processor state unchanged and a destructor that is
a no-op (in particular, it performs no second release). -/
theorem C10_released_pushers_inert :
    (∀ (V : Type) (p : LFPusher) (v : V) (st : LFProc V), p.processor = none →
      lfPusherPush p v st = st ∧ lfPusherDestroy p st = st) ∧
    (∀ (V : Type) (p : LFPusher) (st : LFProc V),
      (lfPusherRelease p st).fst.processor = none) ∧
    (∀ p : LFPusher, (lfPusherMove p).snd.processor = none) ∧
    lfPusherDefault.processor = none ∧
    (∀ (V : Type) (p : LockingPusher) (v : V) (st : LockProc V), p.processor = none →
      lockingPusherPush p v st = st ∧ lockingPusherDestroy p st = st) ∧
    (∀ (V : Type) (p : LockingPusher) (st : LockProc V),
      (lockingPusherRelease p st).fst.processor = none) ∧
    (∀ p : LockingPusher, (lockingPusherMove p).snd.processor = none) ∧
    lockingPusherDefault.processor = none ∧
    (∀ (V : Type) (p : SerialPusher) (v : V) (st : SProc V), p.processor = none →
      serialPusherPush p v st = st ∧ serialPusherDestroy p st = st) ∧
    (∀ (V : Type) (p : SerialPusher) (st : SProc V),
      (serialPusherRelease p st).fst.processor = none) ∧
    (∀ p : SerialPusher, (serialPusherMove p).snd.processor = none) ∧
    serialPusherDefault.processor = none := by
  refine ⟨?_, fun V p st => rfl, fun p => rfl, rfl, ?_, fun V p st => rfl,
    fun p => rfl, rfl, ?_, fun V p st => rfl, fun p => rfl, rfl⟩
  · intro V p v st hp
    constructor
    · rw [lfPusherPush, hp]
    · rw [lfPusherDestroy, hp]
  · intro V p v st hp
    constructor
    · rw [lockingPusherPush, hp]
    · rw [lockingPusherDestroy, hp]
  · intro V p v st hp
    constructor
    · rw [serialPusherPush, hp]
    · rw [serialPusherDestroy, hp]

/-! ## Witness instantiations of the claim theorems -/
/-- Witness for C1 at a concrete operation sequence. -/
theorem C1_witness :
    (RcvOp.rel (rcvAcquire 7 (rcvExec rcvEmpty
      [RcvOp.acq 5, RcvOp.acq 6, RcvOp.rel 0])).fst ∉ [RcvOp.acq 9]) ∧
    (let s := rcvExec rcvEmpty [RcvOp.acq 5, RcvOp.acq 6, RcvOp.rel 0]
     let a := rcvAcquire 7 s
     let t := rcvExec a.snd [RcvOp.acq 9]
     a.fst ∉ s.current ∧ s.current.Nodup ∧
       a.fst ∈ t.current ∧ rcvGet t a.fst = some 7 ∧ t.current.Nodup ∧
       ∀ w : Nat, (rcvAcquire w t).fst ≠ a.fst) :=
  ⟨by decide,
    C1_acquire_valid_until_release [RcvOp.acq 5, RcvOp.acq 6, RcvOp.rel 0] 7
      [RcvOp.acq 9] (by decide)⟩

/-- Witness for C2 at the empty operation sequence. -/
theorem C2_witness :
    ((rcvAcquire 0 (rcvExec rcvEmpty ([] : List (RcvOp Nat)))).fst ∉
      (rcvExec rcvEmpty ([] : List (RcvOp Nat))).current ∧
      ∀ i < (rcvAcquire 0 (rcvExec rcvEmpty ([] : List (RcvOp Nat)))).fst,
        i ∈ (rcvExec rcvEmpty ([] : List (RcvOp Nat))).current) ∧
    (let t₁ := rcvAcquire 10 (rcvEmpty (V := Nat))
     let t₂ := rcvAcquire 20 t₁.snd
     let t₃ := rcvAcquire 30 t₂.snd
     let t₄ := rcvRelease t₂.fst t₃.snd
     let t₅ := rcvAcquire 99 t₄
     t₁.fst ≠ t₂.fst ∧ t₁.fst ≠ t₃.fst ∧ t₂.fst ≠ t₃.fst ∧
       t₅.fst = t₂.fst ∧
       (rcvActiveHandles t₅.snd).map (rcvGet t₅.snd) = [some 10, some 99, some 30]) :=
  C2_acquire_lowest_and_scenario [] 0

/-- Witness for C3 (amended) at a concrete visiting state. -/
theorem C3_witness :
    (0 < (⟨rcvEmpty, 1, []⟩ : SigState).visiting ∧
      sigDisconnect 3 ⟨rcvEmpty, 1, []⟩ =
        { (⟨rcvEmpty, 1, []⟩ : SigState) with deferredDisconnect := setInsert 3 [] }) ∧
    (c3StateRel.visiting = 0 ∧
      (sigBroadcast c3StateRel).snd.deferredDisconnect = []) :=
  ⟨⟨by decide, C3_deferred_release_amended.1 ⟨rcvEmpty, 1, []⟩ 3 (by decide)⟩,
    ⟨by decide, (C3_deferred_release_amended.2.2.2 c3StateRel (by decide)).1⟩⟩

/-- Witness for C4 (amended) at the concrete two-connection signal. -/
theorem C4_witness :
    (∀ q ∈ (sigBroadcast c4State).fst, q.snd = sigGetCb c4State q.fst) ∧
    ((sigBroadcast c4State).fst.map Prod.fst).Sublist c4State.cns.current :=
  C4_broadcast_in_place_amended c4State

/-- Witness for C5 at the concrete three-connection signal. -/
theorem C5_witness :
    (c5State.visiting = 0 ∧ c5State.deferredDisconnect = [] ∧
      c5State.cns.current.Nodup ∧ 1 ∈ c5State.cns.current ∧
      sigGetCb c5State 1 = [1] ∧
      (∀ h ∈ c5State.cns.current, h ≠ 1 → sigGetCb c5State h = [])) ∧
    ((sigBroadcast c5State).fst.map Prod.fst = c5State.cns.current ∧
      (sigBroadcast c5State).fst.length = c5State.cns.current.length ∧
      1 ∉ (sigBroadcast c5State).snd.cns.current ∧
      (sigBroadcast (sigBroadcast c5State).snd).fst.map Prod.fst =
        (sigBroadcast c5State).snd.cns.current ∧
      1 ∉ (sigBroadcast (sigBroadcast c5State).snd).fst.map Prod.fst) :=
  ⟨⟨by decide, by decide, by decide, by decide, by decide, by decide⟩,
    C5_self_disconnect_broadcast c5State 1 (by decide) (by decide) (by decide)
      (by decide) (by decide) (by decide)⟩

/-- Witness for C6 at the concrete one-connection world. -/
theorem C6_witness :
    ((c6World.bodies.getD 0 false = true →
      (0 : Nat) ∈ c6World.sig.cns.current ∧
      (∃ r : CnRecord, rcvGet c6World.sig.cns 0 = some r ∧ r.body = 0) ∧
      0 < c6World.bodies.length)) ∧
    ((destroySignal c6World).bodies.getD 0 false = false ∧
      destroyCn ⟨0, 0⟩ (destroySignal c6World) = destroySignal c6World ∧
      (destroySignal c6World).sig.deferredDisconnect = [] ∧
      (destroySignal c6World).sig.cns.current = []) :=
  ⟨by decide, C6_destroy_signal_token_noop c6World ⟨0, 0⟩ (by decide)⟩

/-- Witness for C7 (amended) at concrete payloads and indices. -/
theorem C7_witness :
    ((serialProcessAll pureAct 2
      (serialPushIndexed 5 0 (serialMakePusher (sprocEmpty (V := Nat))).fst
        (serialPushIndexed 4 0 (serialMakePusher (sprocEmpty (V := Nat))).fst
          (serialMakePusher (sprocEmpty (V := Nat))).snd))).fst = [4]) ∧
    ((serialProcessAll pureAct 2
      (serialPushIndexed 5 1 (serialMakePusher (sprocEmpty (V := Nat))).fst
        (serialPushIndexed 4 0 (serialMakePusher (sprocEmpty (V := Nat))).fst
          (serialMakePusher (sprocEmpty (V := Nat))).snd))).fst = [4, 5]) :=
  ⟨(C7_coalesce_first_payload 4 5 0 0).1 rfl,
    (C7_coalesce_first_payload 4 5 0 1).2 (by decide)⟩

/-- Witness for C8 at a concrete mid-processing slot. -/
theorem C8_witness :
    (lookupSlot 0 c8ProcState = some ⟨true, 0, ivEmpty, ivEmpty⟩ ∧
      (⟨true, 0, ivEmpty, ivEmpty⟩ : PSlot Nat).processing = true) ∧
    serialRelease 0 c8ProcState =
      { c8ProcState with deferredRelease := c8ProcState.deferredRelease ++ [0] } :=
  ⟨⟨by decide, rfl⟩,
    C8_release_deferred_while_processing.1 Nat 0 c8ProcState
      ⟨true, 0, ivEmpty, ivEmpty⟩ (by decide) rfl⟩

/-- Witness for C9 at two concrete pushers and a concrete growing queue. -/
theorem C9_witness :
    ((lfProcessAll (⟨[((1 : Nat), [10, 20]), (0, [30])].map lfBuild, [], [],
        false⟩ : LFProc Nat)).fst =
      (([((1 : Nat), [10, 20]), (0, [30])]).map Prod.snd).join) ∧
    ((lfqBuf (⟨2, [1, 2, 3], [], false⟩ : LFQueue Nat).pushIndex
        ⟨2, [1, 2, 3], [], false⟩).length > (2 : Nat) / 2 ∧
      (lfqProcessAll (⟨2, [1, 2, 3], [], false⟩ : LFQueue Nat)).snd.size = 2 * 2 ∧
      (lfqProcessAll (⟨2, [1, 2, 3], [], false⟩ : LFQueue Nat)).snd.pushIndex = !false ∧
      (lfqProcessAll (⟨2, [1, 2, 3], [], false⟩ : LFQueue Nat)).fst =
        lfqBuf false ⟨2, [1, 2, 3], [], false⟩) :=
  ⟨(C9_lock_free_exactly_once [((1 : Nat), [10, 20]), (0, [30])]).1.1,
    by
      have := (C9_lock_free_exactly_once ([] : List (Nat × List Nat))).2
        ⟨2, [1, 2, 3], [], false⟩ (by decide)
      exact ⟨by decide, this.1, this.2.1, this.2.2⟩⟩

/-- Witness for C10 at default-constructed pushers. -/
theorem C10_witness :
    (lfPusherPush lfPusherDefault (0 : Nat) (⟨[], [], [], false⟩ : LFProc Nat) =
        ⟨[], [], [], false⟩ ∧
      lfPusherDestroy lfPusherDefault (⟨[], [], [], false⟩ : LFProc Nat) =
        ⟨[], [], [], false⟩) ∧
    (lockingPusherPush lockingPusherDefault (0 : Nat)
        (⟨[], 0⟩ : LockProc Nat) = ⟨[], 0⟩ ∧
      lockingPusherDestroy lockingPusherDefault (⟨[], 0⟩ : LockProc Nat) = ⟨[], 0⟩) ∧
    (serialPusherPush serialPusherDefault (0 : Nat) (sprocEmpty (V := Nat)) =
        sprocEmpty ∧
      serialPusherDestroy serialPusherDefault (sprocEmpty (V := Nat)) = sprocEmpty) :=
  ⟨C10_released_pushers_inert.1 Nat lfPusherDefault 0 ⟨[], [], [], false⟩ rfl,
    C10_released_pushers_inert.2.2.2.2.1 Nat lockingPusherDefault 0 ⟨[], 0⟩ rfl,
    C10_released_pushers_inert.2.2.2.2.2.2.2.2.1 Nat serialPusherDefault 0
      sprocEmpty rfl⟩

end Clog
